import Mathlib

/-!
# A bounded LRU cache: `cache.go`

Shallow embedding of `MemoryCache` (a Go map from keys to nodes plus a
`container/list` recency list) with explicit state passing, followed by the
properties proved about it.

Modelling decisions:

* Keys.  `K comparable` is a type with decidable equality together with two
  predicates (`GoKey`): `nan k` says that `k` is not equal to itself under
  Go's `==` (a floating-point NaN, or a struct, array or interface value
  holding one), and `isNil k` says that `k` is the nil value of an interface
  key type.  On keys that are equal to themselves Go's `==` is equality.
* `map[K]*node[V]` is a `GoMap`: a finite map for the keys that are equal to
  themselves, and the list of entries stored under keys that are not.  No
  lookup, assignment or `delete` reaches an entry of that list, and `len`
  counts them.  Every node is stored under one key only, so the map holds the
  nodes themselves.
* A `*list.Element` is an address (a natural number).  A `list.List` is the
  sequence of its elements from front to back together with the next address
  its allocator hands out, so that `PushFront` returns an element distinct
  from every element the list ever held.
* `list.Element.Value` has Go type `any`: it is `some k` for the key `k`
  converted to `any`, and `none` for a value of any other type.  The type
  assertion `el.Value.(K)` fails on `none` and on `some k` when `k` is the nil
  value of an interface type, since `k` converted to `any` is then the nil
  interface, on which every type assertion fails.
* `capacity` and the results of `Len`/`Size` are Go `int`s, embedded in `Int`.
* Every operation is a function from the state before the call to the state
  after it and the returned values: calls are performed one after the other.
  The mutex `mu` is modelled apart from that, by the kind of lock each method
  takes in its first statement and holds until it returns.
* A key whose dynamic type is not comparable makes the map operations of
  every method panic; such values are not keys of the model.
-/

set_option linter.unusedSectionVars false

namespace cache

/-! ## Keys and maps -/

/-- What the program can observe of a Go key type beyond equality. -/
class GoKey (K : Type) where
  /-- The key is not equal to itself under `==` (a NaN). -/
  nan : K → Bool
  /-- The key is the nil value of an interface key type. -/
  isNil : K → Bool
  /-- The nil interface is equal to itself. -/
  nil_not_nan : ∀ k, isNil k = true → nan k = false

/-- Go `int` keys (and any key type without NaN and without nil): here `Nat`. -/
instance : GoKey Nat where
  nan := fun _ => false
  isNil := fun _ => false
  nil_not_nan := fun _ _ => rfl

/-- Keys of the Go type `any` holding nil, an `int`, or the `float64` NaN. -/
inductive AnyKey where
  | nil : AnyKey
  | int (n : Nat) : AnyKey
  | NaN : AnyKey
deriving DecidableEq, Repr

instance : GoKey AnyKey where
  nan := fun k => decide (k = AnyKey.NaN)
  isNil := fun k => decide (k = AnyKey.nil)
  nil_not_nan := fun k h => by cases k <;> simp_all

/-- A Go map: `reg` holds the entries under keys equal to themselves, `lost`
the entries stored under keys that are not (most recent first). -/
structure GoMap (K V : Type) where
  reg : Finmap (fun _ : K => V)
  lost : List (K × V)

/-- Go `make(map[K]V)`: the empty map. -/
def GoMap.empty {K V : Type} : GoMap K V := ⟨∅, []⟩

instance {K V : Type} : EmptyCollection (GoMap K V) := ⟨GoMap.empty⟩

variable {K V : Type} [DecidableEq K] [GoKey K]

/-- Go `v, ok := m[k]`: a key that is not equal to itself is never found. -/
def GoMap.lookup {W : Type} (m : GoMap K W) (k : K) : Option W :=
  if GoKey.nan k then none else m.reg.lookup k

/-- Go `m[k] = v`: a key that is not equal to itself always adds an entry. -/
def GoMap.store {W : Type} (m : GoMap K W) (k : K) (v : W) : GoMap K W :=
  if GoKey.nan k then { m with lost := (k, v) :: m.lost }
  else { m with reg := m.reg.insert k v }

/-- Go `delete(m, k)`: does nothing for a key that is not equal to itself. -/
def GoMap.delete {W : Type} (m : GoMap K W) (k : K) : GoMap K W :=
  if GoKey.nan k then m else { m with reg := m.reg.erase k }

/-- Go `len(m)`: the number of entries. -/
def GoMap.len {W : Type} (m : GoMap K W) : Nat := m.reg.keys.card + m.lost.length

/-- A key is in the map when a lookup finds it. -/
instance {W : Type} : Membership K (GoMap K W) := ⟨fun m k => (m.lookup k).isSome = true⟩

instance {W : Type} (m : GoMap K W) (k : K) : Decidable (k ∈ m) :=
  inferInstanceAs (Decidable ((m.lookup k).isSome = true))

/-! ## `container/list` -/

/-- An element of a `list.List`: its address and the value it carries, `some k`
for the key `k` converted to `any`. -/
structure Element (K : Type) where
  addr : Nat
  Value : Option K
deriving DecidableEq, Repr

/-- Go `el.Value.(K)`: fails on a value that is not a key and on the nil
interface. -/
def Element.assertK (e : Element K) : Option K :=
  match e.Value with
  | none => none
  | some k => if GoKey.isNil k then none else some k

/-- A `list.List`: elements from front to back, and the allocator's next address. -/
structure GoList (K : Type) where
  elems : List (Element K)
  fresh : Nat
deriving DecidableEq, Repr

/-- Go `list.New()`: the empty list. -/
def GoList.New {K : Type} : GoList K := ⟨[], 0⟩

/-- Go `l.Len()`: the number of elements. -/
def GoList.Len {K : Type} (l : GoList K) : Int := l.elems.length

/-- Go `l.Back()`: the last element, `none` standing for `nil`. -/
def GoList.Back {K : Type} (l : GoList K) : Option (Element K) := l.elems.getLast?

/-- Go `l.Remove(e)`: unlinks the element at address `e` if it is an element of
`l` (`if e.list == l`), else does nothing. -/
def GoList.Remove {K : Type} (l : GoList K) (e : Nat) : GoList K :=
  { l with elems := l.elems.filter (fun x => x.addr != e) }

/-- Go `l.PushFront(v)`: allocates an element holding `v`, links it at the front
and returns the list together with the address of the new element. -/
def GoList.PushFront {K : Type} (l : GoList K) (v : Option K) : GoList K × Nat :=
  ({ elems := ⟨l.fresh, v⟩ :: l.elems, fresh := l.fresh + 1 }, l.fresh)

/-- Go `l.MoveToFront(e)`: `if e.list != l || l.root.next == e { return }`, else
`e` is unlinked and linked again at the front. -/
def GoList.MoveToFront {K : Type} (l : GoList K) (e : Nat) : GoList K :=
  match l.elems.find? (fun x => x.addr == e) with
  | none => l
  | some x =>
    if l.elems.head?.map Element.addr = some e then l
    else { l with elems := x :: l.elems.filter (fun y => y.addr != e) }

/-! ## `cache.go` -/

/-- The errors the package creates. -/
inductive error (K : Type) where
  /-- Go `errors.New("no elements to evict")`, from `evict` -/
  | noElementsToEvict : error K
  /-- Go `errors.New("an error occurred casting K")`, from `evict` -/
  | castK : error K
  /-- Go `fmt.Errorf("no entry for key: %v found", key)`, from `Remove` -/
  | noEntry (key : K) : error K
deriving DecidableEq, Repr

/-- Go `type node[T any] struct { data T; key *list.Element }` -/
structure node (V : Type) where
  data : V
  key : Nat
deriving DecidableEq, Repr

/-- Go `type MemoryCache[K comparable, V any] struct` (without the mutex). -/
structure MemoryCache (K V : Type) where
  data : GoMap K (node V)
  order : GoList K
  capacity : Int

/-- Go `func New[K comparable, V any](capacity int) *MemoryCache[K, V]` -/
def New (K V : Type) (capacity : Int) : MemoryCache K V :=
  { data := GoMap.empty, order := GoList.New, capacity := capacity }

/-- Go `func (c *MemoryCache[K, V]) evict() error` -/
def MemoryCache.evict (c : MemoryCache K V) : MemoryCache K V × Option (error K) :=
  match c.order.Back with
  | none => (c, some error.noElementsToEvict)
  | some el =>
    match el.assertK with
    | none => (c, some error.castK)
    | some key =>
      ({ c with order := c.order.Remove el.addr, data := c.data.delete key }, none)

/-- Go `func (c *MemoryCache[K, V]) Set(key K, val V) error`; `PushFront(key)`
converts the key to `any`. -/
def MemoryCache.Set (c : MemoryCache K V) (key : K) (val : V) :
    MemoryCache K V × Option (error K) :=
  match c.data.lookup key with
  | none =>
    let r := if c.order.Len ≥ c.capacity then c.evict else (c, none)
    match r.2 with
    | some err => (r.1, some err)
    | none =>
      let p := r.1.order.PushFront (some key)
      ({ r.1 with data := r.1.data.store key ⟨val, p.2⟩, order := p.1 }, none)
  | some entry =>
    ({ c with order := c.order.MoveToFront entry.key,
              data := c.data.store key ⟨val, entry.key⟩ }, none)

/-- Go `func (c *MemoryCache[K, V]) Remove(key K) error` -/
def MemoryCache.Remove (c : MemoryCache K V) (key : K) :
    MemoryCache K V × Option (error K) :=
  match c.data.lookup key with
  | none => (c, some (error.noEntry key))
  | some entry =>
    ({ c with data := c.data.delete key, order := c.order.Remove entry.key }, none)

/-- Go `func (c *MemoryCache[K, V]) Get(key K) (V, bool)`; `*new(V)` is `default`. -/
def MemoryCache.Get [Inhabited V] (c : MemoryCache K V) (key : K) :
    MemoryCache K V × (V × Bool) :=
  match c.data.lookup key with
  | none => (c, (default, false))
  | some entry => ({ c with order := c.order.MoveToFront entry.key }, (entry.data, true))

/-- Go `func (c *MemoryCache[K, V]) Exists(key K) bool` -/
def MemoryCache.Exists (c : MemoryCache K V) (key : K) : MemoryCache K V × Bool :=
  (c, (c.data.lookup key).isSome)

/-- Go `func (c *MemoryCache[K, V]) Size() int` -/
def MemoryCache.Size (c : MemoryCache K V) : MemoryCache K V × Int :=
  (c, (c.data.len : Int))

/-! ## Call sequences -/

/-- One call on the `Cache` interface. -/
inductive Call (K V : Type) where
  | Set (key : K) (val : V) : Call K V
  | Remove (key : K) : Call K V
  | Get (key : K) : Call K V
  | Exists (key : K) : Call K V
  | Size : Call K V
deriving DecidableEq, Repr

/-- What a call returns. -/
inductive Ret (K V : Type) where
  | err (e : Option (error K)) : Ret K V
  | val (v : V) (ok : Bool) : Ret K V
  | bool (b : Bool) : Ret K V
  | int (n : Int) : Ret K V
deriving DecidableEq, Repr

/-- Performs one call: the state after it and the value returned. -/
def MemoryCache.call [Inhabited V] (c : MemoryCache K V) :
    Call K V → MemoryCache K V × Ret K V
  | Call.Set key val => ((c.Set key val).1, Ret.err (c.Set key val).2)
  | Call.Remove key => ((c.Remove key).1, Ret.err (c.Remove key).2)
  | Call.Get key => ((c.Get key).1, Ret.val (c.Get key).2.1 (c.Get key).2.2)
  | Call.Exists key => ((c.Exists key).1, Ret.bool (c.Exists key).2)
  | Call.Size => (c.Size.1, Ret.int c.Size.2)

/-- The state after a sequence of calls, performed from left to right. -/
def MemoryCache.run [Inhabited V] (c : MemoryCache K V) (cs : List (Call K V)) :
    MemoryCache K V :=
  cs.foldl (fun s x => (s.call x).1) c

/-- The states a cache created by `New(capacity)` can be in. -/
def Reachable [Inhabited V] (capacity : Int) (c : MemoryCache K V) : Prop :=
  ∃ cs : List (Call K V), c = (New K V capacity).run cs

/-- The state after `Set` of each pair in turn, and whether every `Set` returned `nil`. -/
def MemoryCache.setAll (c : MemoryCache K V) : List (K × V) → MemoryCache K V × Bool
  | [] => (c, true)
  | kv :: rest =>
    let r := ((c.Set kv.1 kv.2).1).setAll rest
    (r.1, (c.Set kv.1 kv.2).2.isNone && r.2)

/-- The state after `n` calls of `Exists(key)`. -/
def MemoryCache.existsN (c : MemoryCache K V) (key : K) : Nat → MemoryCache K V
  | 0 => c
  | n + 1 => ((c.Exists key).1).existsN key n

/-- The recency order as a sequence of keys, most recently used first. -/
def MemoryCache.recency (c : MemoryCache K V) : List K :=
  c.order.elems.filterMap Element.Value

/-- Whether a call is a `Set` of a key that is not equal to itself. -/
def Call.setsNaN : Call K V → Bool
  | Call.Set key _ => GoKey.nan key
  | _ => false

/-- Whether a call is a `Set` of the nil value of an interface key type. -/
def Call.setsNil : Call K V → Bool
  | Call.Set key _ => GoKey.isNil key
  | _ => false

/-- The states a cache created by `New(capacity)` can be in when no call of
the sequence sets a key that is not equal to itself. -/
def ReachableNoNaN [Inhabited V] (capacity : Int) (c : MemoryCache K V) : Prop :=
  ∃ cs : List (Call K V), (∀ x ∈ cs, x.setsNaN = false) ∧ c = (New K V capacity).run cs

/-- Whether the key at the back of the recency order is the nil value of an
interface key type (the type assertion of `evict` then fails). -/
def MemoryCache.backNil (c : MemoryCache K V) : Bool :=
  match c.recency.getLast? with
  | some z => GoKey.isNil z
  | none => false

/-- Whether `Set(key, ·)` has to evict (the key is absent and the list is at
capacity) while the key at the back is the nil value of an interface type. -/
def MemoryCache.evictsNil (c : MemoryCache K V) (key : K) : Bool :=
  (c.data.lookup key).isNone && decide (c.order.Len ≥ c.capacity) && c.backNil

/-- The index and the recency list describe the same entries: element
addresses are distinct and were handed out by the allocator, every element
holds a key and, if the key is equal to itself, the node of that key points
back at the element; every node of the finite map is stored under a key equal
to itself and points at an element holding that key; the list is within the
capacity; the elements holding keys not equal to themselves are at most as
many as the entries stored under such keys, and such entries only exist when
the capacity is positive. -/
structure Inv (c : MemoryCache K V) : Prop where
  nodup : (c.order.elems.map Element.addr).Nodup
  below : ∀ e ∈ c.order.elems, e.addr < c.order.fresh
  ofOrder : ∀ e ∈ c.order.elems,
    ∃ k, e.Value = some k ∧
      (GoKey.nan k = false → ∃ n, c.data.reg.lookup k = some n ∧ n.key = e.addr)
  ofData : ∀ k n, c.data.reg.lookup k = some n →
    GoKey.nan k = false ∧ (⟨n.key, some k⟩ : Element K) ∈ c.order.elems
  bound : c.order.elems.length ≤ c.capacity.toNat
  nanLe : (c.recency.filter (fun k => GoKey.nan k)).length ≤ c.data.lost.length
  lostPos : c.data.lost ≠ [] → 0 < c.capacity

/-- No entry of the cache is stored under a key that is not equal to itself. -/
structure Clean (c : MemoryCache K V) : Prop where
  lost : c.data.lost = []
  keys : ∀ k ∈ c.recency, GoKey.nan k = false

/-- No key of the recency order is the nil value of an interface type. -/
def NoNil (c : MemoryCache K V) : Prop :=
  ∀ k ∈ c.recency, GoKey.isNil k = false

/-- The results of a sequence of calls, performed from left to right. -/
def MemoryCache.results [Inhabited V] (c : MemoryCache K V) :
    List (Call K V) → List (Ret K V)
  | [] => []
  | x :: cs => (c.call x).2 :: ((c.call x).1).results cs

/-- The value stored for a key (the zero value if the key is absent). -/
def MemoryCache.valueOf [Inhabited V] (c : MemoryCache K V) (k : K) : V :=
  ((c.data.lookup k).map node.data).getD default

/-- The entries of the cache as (key, value) pairs in recency order. -/
def MemoryCache.abs [Inhabited V] (c : MemoryCache K V) : List (K × V) :=
  c.recency.map (fun k => (k, c.valueOf k))

/-! ## A reference model: one list of (key, value) pairs, most recent first -/

/-- Reference `Set`: deletes any pair with that key, prepends the new pair and
truncates the list to the capacity; it always succeeds. -/
def Naive.Set (capacity : Int) (l : List (K × V)) (key : K) (val : V) :
    List (K × V) × Option (error K) :=
  (((key, val) :: l.filter (fun p => p.1 != key)).take capacity.toNat, none)

/-- Reference `Remove`: deletes the pair with that key, or reports not-found. -/
def Naive.Remove (l : List (K × V)) (key : K) : List (K × V) × Option (error K) :=
  if l.any (fun p => p.1 == key) then (l.filter (fun p => p.1 != key), none)
  else (l, some (error.noEntry key))

/-- Reference `Get`: on a hit moves the pair to the front and returns its
value; on a miss returns the zero value and `false`. -/
def Naive.Get [Inhabited V] (l : List (K × V)) (key : K) : List (K × V) × (V × Bool) :=
  match l.find? (fun p => p.1 == key) with
  | some p => (p :: l.filter (fun q => q.1 != key), (p.2, true))
  | none => (l, (default, false))

/-- Reference `Exists`: a membership test. -/
def Naive.Exists (l : List (K × V)) (key : K) : List (K × V) × Bool :=
  (l, l.any (fun p => p.1 == key))

/-- Reference `Size`: the length of the list. -/
def Naive.Size (l : List (K × V)) : List (K × V) × Int :=
  (l, (l.length : Int))

/-- One call on the reference model. -/
def Naive.call [Inhabited V] (capacity : Int) (l : List (K × V)) :
    Call K V → List (K × V) × Ret K V
  | Call.Set key val => ((Naive.Set capacity l key val).1, Ret.err (Naive.Set capacity l key val).2)
  | Call.Remove key => ((Naive.Remove l key).1, Ret.err (Naive.Remove l key).2)
  | Call.Get key => ((Naive.Get l key).1, Ret.val (Naive.Get l key).2.1 (Naive.Get l key).2.2)
  | Call.Exists key => ((Naive.Exists l key).1, Ret.bool (Naive.Exists l key).2)
  | Call.Size => ((Naive.Size l).1, Ret.int (Naive.Size l).2)

/-- The results of a sequence of calls on the reference model. -/
def Naive.results [Inhabited V] (capacity : Int) (l : List (K × V)) :
    List (Call K V) → List (Ret K V)
  | [] => []
  | x :: cs => (Naive.call capacity l x).2 :: Naive.results capacity (Naive.call capacity l x).1 cs

/-! ## Touches -/

/-- The key a call touches: a `Set(x, ·)` that succeeds and a `Get(x)` that
hits touch `x`; no other call touches a key. -/
def MemoryCache.touched [Inhabited V] (c : MemoryCache K V) : Call K V → Option K
  | Call.Set key val => if (c.Set key val).2.isNone then some key else none
  | Call.Get key => if (c.Get key).2.2 then some key else none
  | _ => none

/-- The state after a sequence of calls together with the log of touches, one
entry per call, the most recent call first. -/
def MemoryCache.runLog [Inhabited V] (c : MemoryCache K V) (log : List (Option K)) :
    List (Call K V) → MemoryCache K V × List (Option K)
  | [] => (c, log)
  | x :: cs => ((c.call x).1).runLog (c.touched x :: log) cs

/-- The number of calls made after the last touch of `x` (the length of the
log if `x` was never touched): the smaller, the later the last touch. -/
def age : List (Option K) → K → Nat
  | [], _ => 0
  | t :: log, x => if t = some x then 0 else age log x + 1

/-- The recency order `r` agrees with the log: every key in `r` was touched,
and of two keys in `r` the one nearer the front is the one touched later. -/
def Agrees (r : List K) (log : List (Option K)) : Prop :=
  (∀ x ∈ r, some x ∈ log) ∧
    ∀ x ∈ r, ∀ y ∈ r, (r.indexOf x < r.indexOf y ↔ age log x < age log y)

/-! ## The mutex -/

/-- Go `sync.RWMutex`: held by one writer, or by any number of readers. -/
structure RWMutex where
  writer : Bool
  readers : Nat
deriving DecidableEq, Repr

/-- The two ways of taking a `sync.RWMutex`. -/
inductive LockKind where
  /-- Go `mu.Lock()`, released by `mu.Unlock()` -/
  | Lock : LockKind
  /-- Go `mu.RLock()`, released by `mu.RUnlock()` -/
  | RLock : LockKind
deriving DecidableEq, Repr

/-- Taking the mutex: `Lock` needs the mutex free, `RLock` needs it free of a
writer; `none` means that the caller blocks. -/
def RWMutex.acquire (m : RWMutex) : LockKind → Option RWMutex
  | LockKind.Lock => if m.writer = false ∧ m.readers = 0 then some { m with writer := true }
      else none
  | LockKind.RLock => if m.writer = false then some { m with readers := m.readers + 1 }
      else none

/-- The lock each method takes on `c.mu` in its first statement and releases
by `defer` when it returns: `Set` and `Remove` call `c.mu.Lock()`; `Get`,
`Exists` and `Size` call `c.mu.RLock()`. -/
def Call.lock : Call K V → LockKind
  | Call.Set _ _ => LockKind.Lock
  | Call.Remove _ => LockKind.Lock
  | Call.Get _ => LockKind.RLock
  | Call.Exists _ => LockKind.RLock
  | Call.Size => LockKind.RLock

/-- The mutex after each of the calls, in turn, has taken its lock and none
has returned yet; `none` if one of them blocks. -/
def RWMutex.enterAll (m : RWMutex) : List (Call K V) → Option RWMutex
  | [] => some m
  | x :: xs => (m.acquire x.lock).bind (fun m1 => m1.enterAll xs)

/-- Whether the body of the call writes the recency list in state `c`. -/
def MemoryCache.writesOrder [Inhabited V] (c : MemoryCache K V) (x : Call K V) : Bool :=
  decide ((c.call x).1.order ≠ c.order)

/-! ## Lists of elements -/

theorem Element.eq_of_addr {l : List (Element K)} (hn : (l.map Element.addr).Nodup)
    {x y : Element K} (hx : x ∈ l) (hy : y ∈ l) (h : x.addr = y.addr) : x = y :=
  List.inj_on_of_nodup_map hn hx hy h

theorem filterMap_filter_addr (l : List (Element K)) (a : Nat) (k : K)
    (h : ∀ e ∈ l, (e.addr = a ↔ e.Value = some k)) :
    (l.filter (fun x => x.addr != a)).filterMap Element.Value
      = (l.filterMap Element.Value).filter (fun x => x != k) := by
  induction l with
  | nil => rfl
  | cons e l ih =>
    have ih1 := ih (fun x hx => h x (List.mem_cons_of_mem _ hx))
    have he := h e (List.mem_cons_self _ _)
    rcases hv : e.Value with _ | k1
    · have hne : e.addr ≠ a := fun hc => by simp [he.1 hc] at hv
      simp [List.filter_cons, List.filterMap_cons, hv, hne, ih1]
    · by_cases hk : k1 = k
      · have hea : e.addr = a := he.2 (by rw [hv, hk])
        simp [List.filter_cons, List.filterMap_cons, hv, hea, hk, ih1]
      · have hne : e.addr ≠ a := fun hc => hk (by simpa [hv] using he.1 hc)
        simp [List.filter_cons, List.filterMap_cons, hv, hne, hk, ih1]

theorem filter_addr_getLast (l : List (Element K)) (hn : (l.map Element.addr).Nodup)
    (el : Element K) (h : l.getLast? = some el) :
    l.filter (fun x => x.addr != el.addr) = l.dropLast := by
  have hl : l = l.dropLast ++ [el] := (List.dropLast_append_getLast? el h).symm
  have hn1 : ((l.dropLast ++ [el]).map Element.addr).Nodup := by rw [← hl]; exact hn
  have hne : ∀ x ∈ l.dropLast, x.addr ≠ el.addr := by
    intro x hx hc
    rw [List.map_append, List.nodup_append] at hn1
    exact hn1.2.2 (List.mem_map_of_mem _ hx) (by simp [hc])
  conv_lhs => rw [hl]
  rw [List.filter_append]
  have h1 : List.filter (fun x => x.addr != el.addr) l.dropLast = l.dropLast :=
    List.filter_eq_self.2 (fun x hx => by simpa using hne x hx)
  simp [h1]

theorem filterMap_dropLast (l : List (Element K)) (h : ∀ e ∈ l, e.Value.isSome) :
    l.dropLast.filterMap Element.Value = (l.filterMap Element.Value).dropLast := by
  induction l with
  | nil => rfl
  | cons e l ih =>
    have ih1 := ih (fun x hx => h x (List.mem_cons_of_mem _ hx))
    obtain ⟨k, hk⟩ := Option.isSome_iff_exists.1 (h e (List.mem_cons_self _ _))
    cases l with
    | nil => simp [hk]
    | cons e1 l1 =>
      obtain ⟨k1, hk1⟩ := Option.isSome_iff_exists.1
        (h e1 (List.mem_cons_of_mem _ (List.mem_cons_self _ _)))
      rw [List.dropLast_cons₂, List.filterMap_cons_some hk, ih1,
        List.filterMap_cons_some hk, List.filterMap_cons_some hk1, List.dropLast_cons₂]

theorem moveToFront_elems (l : GoList K) (x : Element K) (hx : x ∈ l.elems)
    (hn : (l.elems.map Element.addr).Nodup) :
    (l.MoveToFront x.addr).elems = x :: l.elems.filter (fun y => y.addr != x.addr) := by
  have hf : l.elems.find? (fun y => y.addr == x.addr) = some x := by
    rcases hf : l.elems.find? (fun y => y.addr == x.addr) with _ | y
    · exact absurd (List.find?_eq_none.1 hf x hx) (by simp)
    · have hy : y = x := Element.eq_of_addr hn (List.mem_of_find?_eq_some hf) hx
        (by simpa using List.find?_some hf)
      rw [hf, hy]
  simp only [GoList.MoveToFront, hf]
  by_cases hh : l.elems.head?.map Element.addr = some x.addr
  · simp only [hh, if_true]
    rcases hl : l.elems with _ | ⟨z, t⟩
    · rw [hl] at hx; exact absurd hx (List.not_mem_nil _)
    · rw [hl] at hh hx hn
      have hz : z = x :=
        Element.eq_of_addr hn (List.mem_cons_self _ _) hx (by simpa using hh)
      subst hz
      have ht : ∀ w ∈ t, w.addr ≠ z.addr := by
        intro w hw hc
        rw [List.map_cons, List.nodup_cons] at hn
        exact hn.1 (hc ▸ List.mem_map_of_mem _ hw)
      have h1 : List.filter (fun w => w.addr != z.addr) t = t :=
        List.filter_eq_self.2 (fun w hw => by simpa using ht w hw)
      simp [List.filter_cons, h1]
  · simp only [hh, if_false]

theorem map_value_eq (l : List (Element K)) (h : ∀ e ∈ l, e.Value.isSome) :
    l.map Element.Value = (l.filterMap Element.Value).map some := by
  induction l with
  | nil => rfl
  | cons e l ih =>
    obtain ⟨k, hk⟩ := Option.isSome_iff_exists.1 (h e (List.mem_cons_self _ _))
    rw [List.filterMap_cons_some hk, List.map_cons, List.map_cons, hk,
      ih (fun x hx => h x (List.mem_cons_of_mem _ hx))]

theorem filter_addr_eq_erase (l : List (Element K)) (hn : (l.map Element.addr).Nodup)
    (x : Element K) (hx : x ∈ l) :
    l.filter (fun y => y.addr != x.addr) = l.erase x := by
  rw [(List.Nodup.of_map _ hn).erase_eq_filter]
  apply List.filter_congr
  intro y hy
  rw [Bool.eq_iff_iff, bne_iff_ne, bne_iff_ne]
  exact ⟨fun hc hxy => hc (by rw [hxy]), fun hc ha => hc (Element.eq_of_addr hn hy hx ha)⟩

theorem length_filter_addr (l : List (Element K)) (hn : (l.map Element.addr).Nodup)
    (x : Element K) (hx : x ∈ l) :
    (l.filter (fun y => y.addr != x.addr)).length + 1 = l.length := by
  rw [filter_addr_eq_erase l hn x hx, List.length_erase_of_mem hx]
  have : 0 < l.length := List.length_pos_of_mem hx
  omega

theorem moveToFront_fresh (l : GoList K) (a : Nat) : (l.MoveToFront a).fresh = l.fresh := by
  unfold GoList.MoveToFront
  split
  · rfl
  · split <;> rfl

/-! ## Maps -/

theorem GoMap.lookup_nan {W : Type} (m : GoMap K W) {k : K} (hk : GoKey.nan k = true) :
    m.lookup k = none := by
  simp [GoMap.lookup, hk]

theorem GoMap.lookup_reg {W : Type} (m : GoMap K W) {k : K} (hk : GoKey.nan k = false) :
    m.lookup k = m.reg.lookup k := by
  simp [GoMap.lookup, hk]

theorem GoMap.nan_of_lookup {W : Type} {m : GoMap K W} {k : K} {w : W}
    (h : m.lookup k = some w) : GoKey.nan k = false := by
  rcases hn : GoKey.nan k with _ | _
  · rfl
  · rw [m.lookup_nan hn] at h
    cases h

theorem GoMap.reg_of_lookup {W : Type} {m : GoMap K W} {k : K} {w : W}
    (h : m.lookup k = some w) : m.reg.lookup k = some w := by
  rw [← m.lookup_reg (GoMap.nan_of_lookup h)]
  exact h

theorem GoMap.mem_iff {W : Type} (m : GoMap K W) (k : K) :
    k ∈ m ↔ ∃ w, m.lookup k = some w :=
  Option.isSome_iff_exists

theorem GoMap.not_mem_iff {W : Type} (m : GoMap K W) (k : K) :
    k ∉ m ↔ m.lookup k = none := by
  show ¬ (m.lookup k).isSome = true ↔ _
  rw [Option.not_isSome_iff_eq_none]

theorem GoMap.store_reg {W : Type} (m : GoMap K W) {k : K} (hk : GoKey.nan k = false)
    (w : W) : m.store k w = { m with reg := m.reg.insert k w } := by
  simp [GoMap.store, hk]

theorem GoMap.store_nan {W : Type} (m : GoMap K W) {k : K} (hk : GoKey.nan k = true)
    (w : W) : m.store k w = { m with lost := (k, w) :: m.lost } := by
  simp [GoMap.store, hk]

theorem GoMap.delete_reg {W : Type} (m : GoMap K W) {k : K} (hk : GoKey.nan k = false) :
    m.delete k = { m with reg := m.reg.erase k } := by
  simp [GoMap.delete, hk]

theorem GoMap.delete_nan {W : Type} (m : GoMap K W) {k : K} (hk : GoKey.nan k = true) :
    m.delete k = m := by
  simp [GoMap.delete, hk]

theorem GoMap.lookup_store_self {W : Type} (m : GoMap K W) {k : K}
    (hk : GoKey.nan k = false) (w : W) : (m.store k w).lookup k = some w := by
  rw [m.store_reg hk, GoMap.lookup_reg _ hk]
  exact Finmap.lookup_insert _

theorem GoMap.lookup_store_of_ne {W : Type} (m : GoMap K W) (k : K) (w : W) {x : K}
    (hx : x ≠ k) : (m.store k w).lookup x = m.lookup x := by
  rcases hn : GoKey.nan k with _ | _
  · rw [m.store_reg hn]
    unfold GoMap.lookup
    split
    · rfl
    · exact Finmap.lookup_insert_of_ne _ hx
  · rw [m.store_nan hn]
    rfl

theorem GoMap.lookup_delete_self {W : Type} (m : GoMap K W) (k : K) :
    (m.delete k).lookup k = none := by
  rcases hn : GoKey.nan k with _ | _
  · rw [m.delete_reg hn, GoMap.lookup_reg _ hn]
    exact Finmap.lookup_erase k m.reg
  · exact GoMap.lookup_nan _ hn

theorem GoMap.lookup_delete_of_ne {W : Type} (m : GoMap K W) (k : K) {x : K}
    (hx : x ≠ k) : (m.delete k).lookup x = m.lookup x := by
  rcases hn : GoKey.nan k with _ | _
  · rw [m.delete_reg hn]
    unfold GoMap.lookup
    split
    · rfl
    · exact Finmap.lookup_erase_ne hx
  · rw [m.delete_nan hn]

theorem insert_lookup_self {W : Type} (d : Finmap (fun _ : K => W)) {k : K} {n : W}
    (hk : d.lookup k = some n) : d.insert k n = d := by
  apply Finmap.ext_lookup
  intro x
  by_cases hx : x = k
  · subst hx
    rw [Finmap.lookup_insert, hk]
  · rw [Finmap.lookup_insert_of_ne _ hx]

theorem keys_insert {W : Type} (m : Finmap (fun _ : K => W)) (k : K) (n : W) :
    (m.insert k n).keys = insert k m.keys := by
  ext x
  rw [Finmap.mem_keys, Finmap.mem_insert, Finset.mem_insert, Finmap.mem_keys]

theorem keys_insert_of_mem {W : Type} (m : Finmap (fun _ : K => W)) {k : K} (n : W)
    (hk : k ∈ m) : (m.insert k n).keys = m.keys := by
  rw [keys_insert, Finset.insert_eq_of_mem (Finmap.mem_keys.2 hk)]

theorem erase_insert_of_not_mem {W : Type} (m : Finmap (fun _ : K => W)) {k : K} (n : W)
    (hk : m.lookup k = none) : (m.insert k n).erase k = m := by
  apply Finmap.ext_lookup
  intro x
  by_cases hx : x = k
  · subst hx
    rw [Finmap.lookup_erase, hk]
  · rw [Finmap.lookup_erase_ne hx, Finmap.lookup_insert_of_ne _ hx]

/-! ## The invariant -/

theorem Inv.lookup_eq {c : MemoryCache K V} (h : Inv c) (k : K) :
    c.data.lookup k = c.data.reg.lookup k := by
  rcases hn : GoKey.nan k with _ | _
  · exact c.data.lookup_reg hn
  · rw [c.data.lookup_nan hn]
    rcases hl : c.data.reg.lookup k with _ | n
    · rfl
    · have := (h.ofData k n hl).1
      rw [hn] at this
      cases this

theorem Inv.ofLookup {c : MemoryCache K V} (h : Inv c) {k : K} {n : node V}
    (hk : c.data.lookup k = some n) :
    GoKey.nan k = false ∧ (⟨n.key, some k⟩ : Element K) ∈ c.order.elems :=
  h.ofData k n (GoMap.reg_of_lookup hk)

theorem Inv.addr_eq_iff {c : MemoryCache K V} (h : Inv c) {k : K} {n : node V}
    (hk : c.data.lookup k = some n) {e : Element K} (he : e ∈ c.order.elems) :
    e.addr = n.key ↔ e.Value = some k := by
  constructor
  · intro ha
    rw [Element.eq_of_addr h.nodup he (h.ofLookup hk).2 ha]
  · intro hv
    obtain ⟨k1, h1, h2⟩ := h.ofOrder e he
    rw [hv] at h1
    cases h1
    obtain ⟨n1, h3, h4⟩ := h2 (h.ofLookup hk).1
    rw [GoMap.reg_of_lookup hk] at h3
    cases h3
    exact h4.symm

theorem Inv.value_isSome {c : MemoryCache K V} (h : Inv c) :
    ∀ e ∈ c.order.elems, e.Value.isSome := by
  intro e he
  obtain ⟨k, hk, _⟩ := h.ofOrder e he
  simp [hk]

theorem Inv.mem_recency_of_mem {c : MemoryCache K V} (h : Inv c) {k : K}
    (hk : k ∈ c.data) : k ∈ c.recency := by
  obtain ⟨n, hn⟩ := (c.data.mem_iff k).1 hk
  exact List.mem_filterMap.2 ⟨_, (h.ofLookup hn).2, rfl⟩

theorem Inv.mem_of_mem_recency {c : MemoryCache K V} (h : Inv c) {k : K}
    (hn : GoKey.nan k = false) (hk : k ∈ c.recency) : k ∈ c.data := by
  obtain ⟨e, he, hv⟩ := List.mem_filterMap.1 hk
  obtain ⟨k1, h1, h2⟩ := h.ofOrder e he
  rw [hv] at h1
  cases h1
  obtain ⟨n1, h3, _⟩ := h2 hn
  exact (c.data.mem_iff k).2 ⟨n1, by rw [h.lookup_eq]; exact h3⟩

theorem Inv.mem_recency {c : MemoryCache K V} (h : Inv c) {k : K}
    (hn : GoKey.nan k = false) : k ∈ c.recency ↔ k ∈ c.data :=
  ⟨h.mem_of_mem_recency hn, h.mem_recency_of_mem⟩

theorem Inv.nan_of_mem {c : MemoryCache K V} {k : K} (hk : k ∈ c.data) :
    GoKey.nan k = false := by
  obtain ⟨n, hn⟩ := (c.data.mem_iff k).1 hk
  exact GoMap.nan_of_lookup hn

/-- A key that is equal to itself occurs at most once in the recency order. -/
theorem Inv.pairwise_recency {c : MemoryCache K V} (h : Inv c) :
    c.recency.Pairwise (fun a b => GoKey.nan a = false → a ≠ b) := by
  unfold MemoryCache.recency
  rw [List.pairwise_filterMap]
  have hp : c.order.elems.Pairwise (fun e1 e2 => e1.addr ≠ e2.addr) :=
    List.pairwise_map.1 h.nodup
  refine hp.imp_of_mem ?_
  intro e1 e2 he1 he2 hne b hb b1 hb1 hnan hbb
  obtain ⟨k1, h1, h2⟩ := h.ofOrder e1 he1
  obtain ⟨k2, h3, h4⟩ := h.ofOrder e2 he2
  have hb' : e1.Value = some b := hb
  have hb1' : e2.Value = some b1 := hb1
  rw [hb'] at h1
  cases h1
  rw [hb1', ← hbb] at h3
  cases h3
  obtain ⟨n1, h5, h6⟩ := h2 hnan
  obtain ⟨n2, h7, h8⟩ := h4 hnan
  rw [h5] at h7
  cases h7
  exact hne (h6.symm.trans h8)

theorem Inv.nodup_regular {c : MemoryCache K V} (h : Inv c) :
    (c.recency.filter (fun k => !GoKey.nan k)).Nodup := by
  have hp := (h.pairwise_recency).filter (fun k => !GoKey.nan k)
  refine hp.imp_of_mem ?_
  intro a b ha _ hab
  have : GoKey.nan a = false := by simpa using (List.mem_filter.1 ha).2
  exact hab this

theorem Inv.length_recency {c : MemoryCache K V} (h : Inv c) :
    c.recency.length = c.order.elems.length := by
  have hv := congrArg List.length (map_value_eq c.order.elems h.value_isSome)
  simpa [MemoryCache.recency] using hv.symm

theorem Inv.card_reg {c : MemoryCache K V} (h : Inv c) :
    c.data.reg.keys.card = (c.recency.filter (fun k => !GoKey.nan k)).length := by
  have hk : c.data.reg.keys = (c.recency.filter (fun k => !GoKey.nan k)).toFinset := by
    ext k
    rw [Finmap.mem_keys, List.mem_toFinset, List.mem_filter, Finmap.mem_iff]
    constructor
    · rintro ⟨n, hn⟩
      have hnan := (h.ofData k n hn).1
      exact ⟨List.mem_filterMap.2 ⟨_, (h.ofData k n hn).2, rfl⟩, by simp [hnan]⟩
    · rintro ⟨hm, hnan⟩
      have hnan1 : GoKey.nan k = false := by simpa using hnan
      obtain ⟨n, hn⟩ := (c.data.mem_iff k).1 (h.mem_of_mem_recency hnan1 hm)
      exact ⟨n, GoMap.reg_of_lookup hn⟩
  rw [hk, List.toFinset_card_of_nodup h.nodup_regular]

/-- The recency list is never longer than the index: `Len() ≤ Size()`. -/
theorem Inv.len_le_size {c : MemoryCache K V} (h : Inv c) :
    c.order.elems.length ≤ c.data.len := by
  rw [← h.length_recency, List.length_eq_length_filter_add (fun k => !GoKey.nan k)]
  unfold GoMap.len
  rw [h.card_reg]
  have := h.nanLe
  have he : (c.recency.filter (fun x => !(fun k => !GoKey.nan k) x))
      = c.recency.filter (fun k => GoKey.nan k) := by
    congr 1
    funext x
    simp
  rw [he]
  omega

theorem Inv.new (capacity : Int) : Inv (New K V capacity) where
  nodup := List.nodup_nil
  below := fun e he => absurd he (List.not_mem_nil _)
  ofOrder := fun e he => absurd he (List.not_mem_nil _)
  ofData := fun k n hk => by simp [New, GoMap.empty, Finmap.lookup_empty] at hk
  bound := Nat.zero_le _
  nanLe := Nat.zero_le _
  lostPos := fun hl => absurd rfl hl

theorem length_filter_nan_le {r1 r : List K} (hs : r1.Sublist r) :
    (r1.filter (fun k => GoKey.nan k)).length ≤ (r.filter (fun k => GoKey.nan k)).length :=
  (hs.filter _).length_le

theorem recency_touch {c : MemoryCache K V} (h : Inv c) {k : K} {n : node V}
    (hk : c.data.lookup k = some n) (d : GoMap K (node V)) :
    MemoryCache.recency { c with order := c.order.MoveToFront n.key, data := d }
      = k :: c.recency.filter (fun x => x != k) := by
  have hx := (h.ofLookup hk).2
  have hel := moveToFront_elems c.order _ hx h.nodup
  simp only at hel
  show (c.order.MoveToFront n.key).elems.filterMap Element.Value = _
  rw [hel, List.filterMap_cons_some (rfl : Element.Value ⟨n.key, some k⟩ = some k),
    filterMap_filter_addr c.order.elems n.key k (fun e he => h.addr_eq_iff hk he)]
  rfl

theorem recency_delete {c : MemoryCache K V} (h : Inv c) {k : K} {n : node V}
    (hk : c.data.lookup k = some n) (d : GoMap K (node V)) :
    MemoryCache.recency { c with data := d, order := c.order.Remove n.key }
      = c.recency.filter (fun x => x != k) :=
  filterMap_filter_addr c.order.elems n.key k (fun _ he => h.addr_eq_iff hk he)

theorem recency_dropBack {c : MemoryCache K V} (h : Inv c) {el : Element K}
    (hl : c.order.elems.getLast? = some el) (d : GoMap K (node V)) :
    MemoryCache.recency { c with order := c.order.Remove el.addr, data := d }
      = c.recency.dropLast := by
  show (c.order.elems.filter (fun x => x.addr != el.addr)).filterMap Element.Value = _
  rw [filter_addr_getLast c.order.elems h.nodup _ hl,
    filterMap_dropLast c.order.elems h.value_isSome]
  rfl

/-- Moving the element of a present key to the front and storing a node for
that key that points at the same element keeps the invariant. -/
theorem Inv.touch {c : MemoryCache K V} (h : Inv c) {k : K} {n : node V}
    (hk : c.data.lookup k = some n) (v : V) :
    Inv { c with order := c.order.MoveToFront n.key,
                 data := c.data.store k ⟨v, n.key⟩ } := by
  have hnan := (h.ofLookup hk).1
  have hx := (h.ofLookup hk).2
  have hel := moveToFront_elems c.order _ hx h.nodup
  have hfr := moveToFront_fresh c.order n.key
  have hrec := recency_touch h hk (c.data.store k ⟨v, n.key⟩)
  have hst := c.data.store_reg hnan (⟨v, n.key⟩ : node V)
  simp only at hel
  refine ⟨?_, ?_, ?_, ?_, ?_, ?_, ?_⟩
  · show ((c.order.MoveToFront n.key).elems.map Element.addr).Nodup
    rw [hel, List.map_cons, List.nodup_cons]
    refine ⟨?_, (h.nodup.sublist ((List.filter_sublist _).map _))⟩
    intro hc
    obtain ⟨y, hy, hya⟩ := List.mem_map.1 hc
    have := (List.mem_filter.1 hy).2
    simp at this
    exact this hya
  · intro e he
    show e.addr < (c.order.MoveToFront n.key).fresh
    rw [hfr]
    have he1 : e ∈ (c.order.MoveToFront n.key).elems := he
    rw [hel, List.mem_cons] at he1
    rcases he1 with rfl | he1
    · exact h.below _ hx
    · exact h.below _ (List.mem_filter.1 he1).1
  · intro e he
    have he1 : e ∈ (c.order.MoveToFront n.key).elems := he
    show ∃ k1, e.Value = some k1 ∧ (GoKey.nan k1 = false →
      ∃ n1, (c.data.store k ⟨v, n.key⟩).reg.lookup k1 = some n1 ∧ n1.key = e.addr)
    rw [hst]
    rw [hel, List.mem_cons] at he1
    rcases he1 with rfl | he1
    · exact ⟨k, rfl, fun _ => ⟨⟨v, n.key⟩, Finmap.lookup_insert _, rfl⟩⟩
    · obtain ⟨he2, he3⟩ := List.mem_filter.1 he1
      obtain ⟨k1, h1, h2⟩ := h.ofOrder e he2
      have hne : k1 ≠ k := by
        intro hc
        have := (h.addr_eq_iff hk he2).2 (by rw [h1, hc])
        simp [this] at he3
      refine ⟨k1, h1, fun hn1 => ?_⟩
      obtain ⟨n1, h3, h4⟩ := h2 hn1
      exact ⟨n1, by
        show Finmap.lookup k1 (Finmap.insert k _ c.data.reg) = some n1
        rw [Finmap.lookup_insert_of_ne _ hne]; exact h3, h4⟩
  · intro k1 n1 h1
    show GoKey.nan k1 = false ∧
      (⟨n1.key, some k1⟩ : Element K) ∈ (c.order.MoveToFront n.key).elems
    have h1 : (c.data.store k ⟨v, n.key⟩).reg.lookup k1 = some n1 := h1
    rw [hst] at h1
    have h1 : Finmap.lookup k1 (Finmap.insert k (⟨v, n.key⟩ : node V) c.data.reg)
        = some n1 := h1
    rw [hel, List.mem_cons]
    by_cases hkk : k1 = k
    · subst hkk
      rw [Finmap.lookup_insert] at h1
      cases h1
      exact ⟨hnan, Or.inl rfl⟩
    · rw [Finmap.lookup_insert_of_ne _ hkk] at h1
      obtain ⟨hn1, hm⟩ := h.ofData k1 n1 h1
      refine ⟨hn1, Or.inr (List.mem_filter.2 ⟨hm, ?_⟩)⟩
      have hne : n1.key ≠ n.key := fun hc =>
        hkk (by simpa using (h.addr_eq_iff hk hm).1 hc)
      simpa using hne
  · show (c.order.MoveToFront n.key).elems.length ≤ c.capacity.toNat
    rw [hel, List.length_cons, length_filter_addr c.order.elems h.nodup _ hx]
    exact h.bound
  · rw [hrec]
    show ((k :: c.recency.filter (fun x => x != k)).filter (fun k => GoKey.nan k)).length
      ≤ (c.data.store k ⟨v, n.key⟩).lost.length
    rw [hst, List.filter_cons_of_neg (by simp [hnan])]
    exact le_trans (length_filter_nan_le (List.filter_sublist _)) h.nanLe
  · show (c.data.store k ⟨v, n.key⟩).lost ≠ [] → 0 < c.capacity
    rw [hst]
    exact h.lostPos

/-- Unlinking the element of a present key and deleting the key from the
index keeps the invariant. -/
theorem Inv.delete {c : MemoryCache K V} (h : Inv c) {k : K} {n : node V}
    (hk : c.data.lookup k = some n) :
    Inv { c with data := c.data.delete k, order := c.order.Remove n.key } := by
  have hnan := (h.ofLookup hk).1
  have hx := (h.ofLookup hk).2
  have hrec := recency_delete h hk (c.data.delete k)
  have hst := c.data.delete_reg hnan
  refine ⟨?_, ?_, ?_, ?_, ?_, ?_, ?_⟩
  · exact h.nodup.sublist ((List.filter_sublist _).map _)
  · intro e he
    exact h.below e (List.mem_filter.1 he).1
  · intro e he
    show ∃ k1, e.Value = some k1 ∧ (GoKey.nan k1 = false →
      ∃ n1, (c.data.delete k).reg.lookup k1 = some n1 ∧ n1.key = e.addr)
    rw [hst]
    obtain ⟨he2, he3⟩ := List.mem_filter.1 he
    obtain ⟨k1, h1, h2⟩ := h.ofOrder e he2
    have hne : k1 ≠ k := by
      intro hc
      have := (h.addr_eq_iff hk he2).2 (by rw [h1, hc])
      simp [this] at he3
    refine ⟨k1, h1, fun hn1 => ?_⟩
    obtain ⟨n1, h3, h4⟩ := h2 hn1
    exact ⟨n1, by
      show Finmap.lookup k1 (Finmap.erase k c.data.reg) = some n1
      rw [Finmap.lookup_erase_ne hne]; exact h3, h4⟩
  · intro k1 n1 h1
    have h1 : (c.data.delete k).reg.lookup k1 = some n1 := h1
    rw [hst] at h1
    have h1 : Finmap.lookup k1 (Finmap.erase k c.data.reg) = some n1 := h1
    by_cases hkk : k1 = k
    · subst hkk
      rw [Finmap.lookup_erase] at h1
      cases h1
    · rw [Finmap.lookup_erase_ne hkk] at h1
      obtain ⟨hn1, hm⟩ := h.ofData k1 n1 h1
      refine ⟨hn1, List.mem_filter.2 ⟨hm, ?_⟩⟩
      have hne : n1.key ≠ n.key := fun hc =>
        hkk (by simpa using (h.addr_eq_iff hk hm).1 hc)
      simpa using hne
  · exact le_trans (List.length_filter_le _ _) h.bound
  · rw [hrec]
    show ((c.recency.filter (fun x => x != k)).filter (fun k => GoKey.nan k)).length
      ≤ (c.data.delete k).lost.length
    rw [hst]
    exact le_trans (length_filter_nan_le (List.filter_sublist _)) h.nanLe
  · show (c.data.delete k).lost ≠ [] → 0 < c.capacity
    rw [hst]
    exact h.lostPos

/-- Unlinking the back element and deleting the key it holds from the index
keeps the invariant, also when that key is not equal to itself and `delete`
does nothing. -/
theorem Inv.dropBack {c : MemoryCache K V} (h : Inv c) {a : Nat} {z : K}
    (hl : c.order.elems.getLast? = some ⟨a, some z⟩) :
    Inv { c with order := c.order.Remove a, data := c.data.delete z } := by
  have hmem : (⟨a, some z⟩ : Element K) ∈ c.order.elems := List.mem_of_getLast?_eq_some hl
  rcases hn : GoKey.nan z with _ | _
  · obtain ⟨k1, h1, h2⟩ := h.ofOrder _ hmem
    cases h1
    obtain ⟨n1, h3, h4⟩ := h2 hn
    have hk : c.data.lookup z = some n1 := by rw [h.lookup_eq]; exact h3
    have hd := h.delete hk
    have ha : n1.key = a := h4
    rw [ha] at hd
    exact hd
  · have hrec := recency_dropBack h hl (c.data.delete z)
    rw [c.data.delete_nan hn] at hrec ⊢
    refine ⟨?_, ?_, ?_, ?_, ?_, ?_, h.lostPos⟩
    · exact h.nodup.sublist ((List.filter_sublist _).map _)
    · intro e he
      exact h.below e (List.mem_filter.1 he).1
    · intro e he
      exact h.ofOrder e (List.mem_filter.1 he).1
    · intro k1 n1 h1
      obtain ⟨hn1, hm⟩ := h.ofData k1 n1 h1
      refine ⟨hn1, List.mem_filter.2 ⟨hm, ?_⟩⟩
      have hne : n1.key ≠ a := by
        intro hc
        have := Element.eq_of_addr h.nodup hm hmem hc
        cases this
        rw [hn] at hn1
        cases hn1
      simpa using hne
    · exact le_trans (List.length_filter_le _ _) h.bound
    · rw [hrec]
      exact le_trans (length_filter_nan_le (List.dropLast_sublist _)) h.nanLe

/-- Linking a new element for an absent key at the front and storing a node
pointing at it keeps the invariant, when there is room. -/
theorem Inv.push {c : MemoryCache K V} (h : Inv c) {k : K}
    (hk : c.data.lookup k = none) (v : V) (hlen : c.order.elems.length < c.capacity.toNat) :
    Inv { c with data := c.data.store k ⟨v, (c.order.PushFront (some k)).2⟩,
                 order := (c.order.PushFront (some k)).1 } := by
  have hpos : 0 < c.capacity := by omega
  have hnodup : ((⟨c.order.fresh, some k⟩ :: c.order.elems).map Element.addr).Nodup := by
    rw [List.map_cons, List.nodup_cons]
    refine ⟨?_, h.nodup⟩
    intro hc
    obtain ⟨y, hy, hya⟩ := List.mem_map.1 hc
    have := h.below y hy
    simp only at hya
    omega
  have hbelow : ∀ e ∈ (⟨c.order.fresh, some k⟩ : Element K) :: c.order.elems,
      e.addr < c.order.fresh + 1 := by
    intro e he
    rcases List.mem_cons.1 he with rfl | he2
    · exact Nat.lt_succ_self _
    · exact Nat.lt_succ_of_lt (h.below _ he2)
  rcases hn : GoKey.nan k with _ | _
  · have hkr : c.data.reg.lookup k = none := by rw [← h.lookup_eq]; exact hk
    rw [c.data.store_reg hn]
    refine ⟨hnodup, hbelow, ?_, ?_, hlen, ?_, h.lostPos⟩
    · intro e he
      have he1 : e ∈ (⟨c.order.fresh, some k⟩ : Element K) :: c.order.elems := he
      rcases List.mem_cons.1 he1 with rfl | he2
      · exact ⟨k, rfl, fun _ => ⟨⟨v, c.order.fresh⟩, Finmap.lookup_insert _, rfl⟩⟩
      · obtain ⟨k1, h1, h2⟩ := h.ofOrder e he2
        refine ⟨k1, h1, fun hn1 => ?_⟩
        obtain ⟨n1, h3, h4⟩ := h2 hn1
        have hne : k1 ≠ k := by
          intro hc
          rw [hc, hkr] at h3
          cases h3
        exact ⟨n1, by
          show Finmap.lookup k1 (Finmap.insert k _ c.data.reg) = some n1
          rw [Finmap.lookup_insert_of_ne _ hne]; exact h3, h4⟩
    · intro k1 n1 h1
      have h1 : Finmap.lookup k1 (Finmap.insert k (⟨v, c.order.fresh⟩ : node V) c.data.reg)
          = some n1 := h1
      show GoKey.nan k1 = false ∧ (⟨n1.key, some k1⟩ : Element K)
        ∈ (⟨c.order.fresh, some k⟩ : Element K) :: c.order.elems
      by_cases hkk : k1 = k
      · subst hkk
        rw [Finmap.lookup_insert] at h1
        cases h1
        exact ⟨hn, List.mem_cons_self _ _⟩
      · rw [Finmap.lookup_insert_of_ne _ hkk] at h1
        exact ⟨(h.ofData k1 n1 h1).1, List.mem_cons_of_mem _ (h.ofData k1 n1 h1).2⟩
    · show ((k :: c.recency).filter (fun k => GoKey.nan k)).length ≤ c.data.lost.length
      rw [List.filter_cons_of_neg (by simp [hn])]
      exact h.nanLe
  · rw [c.data.store_nan hn]
    refine ⟨hnodup, hbelow, ?_, ?_, hlen, ?_, fun _ => hpos⟩
    · intro e he
      have he1 : e ∈ (⟨c.order.fresh, some k⟩ : Element K) :: c.order.elems := he
      rcases List.mem_cons.1 he1 with rfl | he2
      · exact ⟨k, rfl, fun hc => by rw [hn] at hc; cases hc⟩
      · exact h.ofOrder e he2
    · intro k1 n1 h1
      exact ⟨(h.ofData k1 n1 h1).1, List.mem_cons_of_mem _ (h.ofData k1 n1 h1).2⟩
    · show ((k :: c.recency).filter (fun k => GoKey.nan k)).length
        ≤ ((k, (⟨v, c.order.fresh⟩ : node V)) :: c.data.lost).length
      rw [List.filter_cons_of_pos (by simp [hn]), List.length_cons, List.length_cons]
      exact Nat.succ_le_succ h.nanLe

/-! ## The operations on states satisfying the invariant -/

theorem Inv.getLast_recency {c : MemoryCache K V} (h : Inv c) {a : Nat} {k : K}
    (hl : c.order.elems.getLast? = some ⟨a, some k⟩) : c.recency.getLast? = some k := by
  have hv := congrArg List.getLast? (map_value_eq c.order.elems h.value_isSome)
  rw [List.getLast?_map, List.getLast?_map, hl] at hv
  rcases hr : c.recency.getLast? with _ | z
  · rw [show (c.order.elems.filterMap Element.Value).getLast? = none from hr] at hv
    cases hv
  · rw [show (c.order.elems.filterMap Element.Value).getLast? = some z from hr] at hv
    simp only [Option.map_some', Option.some.injEq] at hv
    rw [hv]

/-- In a state satisfying the invariant a non-empty list has a back element,
and it holds a key. -/
theorem Inv.back {c : MemoryCache K V} (h : Inv c) (hne : c.order.elems ≠ []) :
    ∃ a z, c.order.elems.getLast? = some ⟨a, some z⟩ ∧ c.recency.getLast? = some z := by
  obtain ⟨el, hel⟩ : ∃ el, c.order.elems.getLast? = some el := by
    rw [List.getLast?_eq_getLast _ hne]
    exact ⟨_, rfl⟩
  obtain ⟨k, h1, _⟩ := h.ofOrder el (List.mem_of_getLast?_eq_some hel)
  have hel2 : el = ⟨el.addr, some k⟩ := by
    cases el
    simp only at h1
    rw [h1]
  rw [hel2] at hel
  exact ⟨el.addr, k, hel, h.getLast_recency hel⟩

theorem Inv.backNil_eq {c : MemoryCache K V} (h : Inv c) {a : Nat} {z : K}
    (hl : c.order.elems.getLast? = some ⟨a, some z⟩) : c.backNil = GoKey.isNil z := by
  unfold MemoryCache.backNil
  rw [h.getLast_recency hl]

theorem backNil_of_nil (c : MemoryCache K V) (he : c.order.elems = []) :
    c.backNil = false := by
  unfold MemoryCache.backNil MemoryCache.recency
  rw [he]
  rfl

theorem evict_empty (c : MemoryCache K V) (he : c.order.elems = []) :
    c.evict = (c, some error.noElementsToEvict) := by
  simp only [MemoryCache.evict, GoList.Back, he, List.getLast?_nil]

theorem evict_nil (c : MemoryCache K V) {a : Nat} {z : K}
    (hl : c.order.elems.getLast? = some ⟨a, some z⟩) (hz : GoKey.isNil z = true) :
    c.evict = (c, some error.castK) := by
  simp [MemoryCache.evict, GoList.Back, hl, Element.assertK, hz]

theorem evict_ok (c : MemoryCache K V) {a : Nat} {z : K}
    (hl : c.order.elems.getLast? = some ⟨a, some z⟩) (hz : GoKey.isNil z = false) :
    c.evict = ({ c with order := c.order.Remove a, data := c.data.delete z }, none) := by
  simp [MemoryCache.evict, GoList.Back, hl, Element.assertK, hz]

theorem Set_present (c : MemoryCache K V) {k : K} {n : node V}
    (hk : c.data.lookup k = some n) (v : V) :
    c.Set k v = ({ c with order := c.order.MoveToFront n.key,
                          data := c.data.store k ⟨v, n.key⟩ }, none) := by
  simp only [MemoryCache.Set, hk]

theorem Set_absent_room (c : MemoryCache K V) {k : K} (hk : c.data.lookup k = none) (v : V)
    (hlt : c.order.Len < c.capacity) :
    c.Set k v = ({ c with data := c.data.store k ⟨v, (c.order.PushFront (some k)).2⟩,
                          order := (c.order.PushFront (some k)).1 }, none) := by
  simp only [MemoryCache.Set, hk, ge_iff_le, not_le.2 hlt, if_false]

theorem Set_absent_empty (c : MemoryCache K V) {k : K} (hk : c.data.lookup k = none) (v : V)
    (hge : c.order.Len ≥ c.capacity) (he : c.order.elems = []) :
    c.Set k v = (c, some error.noElementsToEvict) := by
  simp only [MemoryCache.Set, hk, hge, if_true, evict_empty c he]

theorem Set_absent_nil (c : MemoryCache K V) {k : K} (hk : c.data.lookup k = none) (v : V)
    (hge : c.order.Len ≥ c.capacity) {a : Nat} {z : K}
    (hl : c.order.elems.getLast? = some ⟨a, some z⟩) (hz : GoKey.isNil z = true) :
    c.Set k v = (c, some error.castK) := by
  simp only [MemoryCache.Set, hk, hge, if_true, evict_nil c hl hz]

theorem Set_absent_full (c : MemoryCache K V) {k : K} (hk : c.data.lookup k = none) (v : V)
    (hge : c.order.Len ≥ c.capacity) {a : Nat} {z : K}
    (hl : c.order.elems.getLast? = some ⟨a, some z⟩) (hz : GoKey.isNil z = false) :
    c.Set k v =
      ({ c with
          data := (c.data.delete z).store k ⟨v, ((c.order.Remove a).PushFront (some k)).2⟩,
          order := ((c.order.Remove a).PushFront (some k)).1 }, none) := by
  simp only [MemoryCache.Set, hk, hge, if_true, evict_ok c hl hz]

theorem length_Remove_back {c : MemoryCache K V} (h : Inv c) {el : Element K}
    (hl : c.order.elems.getLast? = some el) :
    (c.order.Remove el.addr).elems.length + 1 = c.order.elems.length :=
  length_filter_addr c.order.elems h.nodup _ (List.mem_of_getLast?_eq_some hl)

theorem Inv.Set {c : MemoryCache K V} (h : Inv c) (k : K) (v : V) : Inv (c.Set k v).1 := by
  rcases hk : c.data.lookup k with _ | n
  · by_cases hge : c.order.Len ≥ c.capacity
    · by_cases he : c.order.elems = []
      · rw [Set_absent_empty c hk v hge he]
        exact h
      · obtain ⟨a, z, hl, _⟩ := h.back he
        rcases hz : GoKey.isNil z with _ | _
        · rw [Set_absent_full c hk v hge hl hz]
          have hd := h.dropBack hl
          have hk0 : (c.data.delete z).lookup k = none := by
            by_cases hkk : k = z
            · rw [hkk]
              exact GoMap.lookup_delete_self _ _
            · rw [GoMap.lookup_delete_of_ne _ _ hkk, hk]
          have hlen : (c.order.Remove a).elems.length < c.capacity.toNat := by
            have := length_Remove_back h hl
            have hb := h.bound
            simp only at this
            omega
          exact hd.push hk0 v hlen
        · rw [Set_absent_nil c hk v hge hl hz]
          exact h
    · have hlt : c.order.Len < c.capacity := not_le.1 hge
      rw [Set_absent_room c hk v hlt]
      refine h.push hk v ?_
      unfold GoList.Len at hlt
      omega
  · rw [Set_present c hk v]
    exact h.touch hk v

theorem Remove_present (c : MemoryCache K V) {k : K} {n : node V}
    (hk : c.data.lookup k = some n) :
    c.Remove k = ({ c with data := c.data.delete k, order := c.order.Remove n.key }, none) := by
  simp only [MemoryCache.Remove, hk]

theorem Remove_absent (c : MemoryCache K V) {k : K} (hk : c.data.lookup k = none) :
    c.Remove k = (c, some (error.noEntry k)) := by
  simp only [MemoryCache.Remove, hk]

theorem Get_present [Inhabited V] (c : MemoryCache K V) {k : K} {n : node V}
    (hk : c.data.lookup k = some n) :
    c.Get k = ({ c with order := c.order.MoveToFront n.key }, (n.data, true)) := by
  simp only [MemoryCache.Get, hk]

theorem Get_absent [Inhabited V] (c : MemoryCache K V) {k : K}
    (hk : c.data.lookup k = none) :
    c.Get k = (c, (default, false)) := by
  simp only [MemoryCache.Get, hk]

theorem GoMap.store_lookup_self {W : Type} (m : GoMap K W) {k : K} {w : W}
    (hk : m.lookup k = some w) : m.store k w = m := by
  rw [m.store_reg (GoMap.nan_of_lookup hk), insert_lookup_self m.reg (GoMap.reg_of_lookup hk)]

theorem Inv.Remove {c : MemoryCache K V} (h : Inv c) (k : K) : Inv (c.Remove k).1 := by
  rcases hk : c.data.lookup k with _ | n
  · rw [Remove_absent c hk]
    exact h
  · rw [Remove_present c hk]
    exact h.delete hk

theorem Inv.Get [Inhabited V] {c : MemoryCache K V} (h : Inv c) (k : K) :
    Inv (c.Get k).1 := by
  rcases hk : c.data.lookup k with _ | n
  · rw [Get_absent c hk]
    exact h
  · rw [Get_present c hk]
    have ht := h.touch hk n.data
    have hn : (⟨n.data, n.key⟩ : node V) = n := rfl
    rw [hn, c.data.store_lookup_self hk] at ht
    exact ht

theorem evict_capacity (c : MemoryCache K V) : c.evict.1.capacity = c.capacity := by
  unfold MemoryCache.evict
  split
  · rfl
  · split <;> rfl

theorem Set_capacity (c : MemoryCache K V) (k : K) (v : V) :
    (c.Set k v).1.capacity = c.capacity := by
  unfold MemoryCache.Set
  split
  · have hr : (if c.order.Len ≥ c.capacity then c.evict else (c, none)).1.capacity
        = c.capacity := by
      split
      · exact evict_capacity c
      · rfl
    generalize (if c.order.Len ≥ c.capacity then c.evict else (c, none)) = r at hr
    rcases r with ⟨c1, _ | err⟩
    · exact hr
    · exact hr
  · rfl

theorem Remove_capacity (c : MemoryCache K V) (k : K) :
    (c.Remove k).1.capacity = c.capacity := by
  unfold MemoryCache.Remove
  split <;> rfl

theorem Get_capacity [Inhabited V] (c : MemoryCache K V) (k : K) :
    (c.Get k).1.capacity = c.capacity := by
  unfold MemoryCache.Get
  split <;> rfl

theorem Inv.call [Inhabited V] {c : MemoryCache K V} (h : Inv c) (x : Call K V) :
    Inv (c.call x).1 := by
  cases x with
  | Set key val => exact h.Set key val
  | Remove key => exact h.Remove key
  | Get key => exact h.Get key
  | Exists key => exact h
  | Size => exact h

theorem call_capacity [Inhabited V] (c : MemoryCache K V) (x : Call K V) :
    (c.call x).1.capacity = c.capacity := by
  cases x with
  | Set key val => exact Set_capacity c key val
  | Remove key => exact Remove_capacity c key
  | Get key => exact Get_capacity c key
  | Exists key => rfl
  | Size => rfl

theorem Inv.run [Inhabited V] {c : MemoryCache K V} (h : Inv c) (cs : List (Call K V)) :
    Inv (c.run cs) := by
  induction cs generalizing c with
  | nil => exact h
  | cons x cs ih => exact ih (h.call x)

theorem run_capacity [Inhabited V] (c : MemoryCache K V) (cs : List (Call K V)) :
    (c.run cs).capacity = c.capacity := by
  induction cs generalizing c with
  | nil => rfl
  | cons x cs ih => exact (ih (c.call x).1).trans (call_capacity c x)

theorem Reachable.inv [Inhabited V] {capacity : Int} {c : MemoryCache K V}
    (h : Reachable capacity c) : Inv c := by
  obtain ⟨cs, rfl⟩ := h
  exact (Inv.new capacity).run cs

theorem Reachable.capacity_eq [Inhabited V] {capacity : Int} {c : MemoryCache K V}
    (h : Reachable capacity c) : c.capacity = capacity := by
  obtain ⟨cs, rfl⟩ := h
  exact run_capacity _ cs

theorem Reachable.after_call [Inhabited V] {capacity : Int} {c : MemoryCache K V}
    (h : Reachable capacity c) (x : Call K V) : Reachable capacity (c.call x).1 := by
  obtain ⟨cs, rfl⟩ := h
  exact ⟨cs ++ [x], by simp [MemoryCache.run, List.foldl_append]⟩

/-! ## The recency order after each operation -/

theorem cons_dropLast_eq_take (k : K) (r : List K) (N : Nat) (hN : 0 < N)
    (h : r.length = N) : k :: r.dropLast = (k :: r).take N := by
  obtain ⟨M, rfl⟩ : ∃ M, N = M + 1 := ⟨N - 1, by omega⟩
  rw [List.take_succ_cons, List.dropLast_eq_take, h]
  rfl

theorem cons_eq_take (k : K) (r : List K) (N : Nat) (h : r.length < N) :
    k :: r = (k :: r).take N :=
  (List.take_of_length_le (by simpa using h)).symm

theorem lookup_eq_none_of_not_mem {c : MemoryCache K V} (h : Inv c) {k : K}
    (hk : k ∉ c.recency) : c.data.lookup k = none :=
  (c.data.not_mem_iff k).1 (fun hm => hk (h.mem_recency_of_mem hm))

theorem not_mem_recency_of_lookup {c : MemoryCache K V} (h : Inv c) {k : K}
    (hn : GoKey.nan k = false) (hk : c.data.lookup k = none) : k ∉ c.recency :=
  fun hm => (c.data.not_mem_iff k).2 hk (h.mem_of_mem_recency hn hm)

theorem Exists_iff (c : MemoryCache K V) (k : K) : (c.Exists k).2 = true ↔ k ∈ c.data :=
  Iff.rfl

theorem Exists_iff_recency {c : MemoryCache K V} (h : Inv c) (k : K) :
    (c.Exists k).2 = true ↔ GoKey.nan k = false ∧ k ∈ c.recency := by
  rw [Exists_iff]
  constructor
  · intro hm
    exact ⟨Inv.nan_of_mem hm, h.mem_recency_of_mem hm⟩
  · rintro ⟨hn, hm⟩
    exact h.mem_of_mem_recency hn hm

theorem Exists_eq_false {c : MemoryCache K V} (h : Inv c) {k : K}
    (hk : GoKey.nan k = true ∨ k ∉ c.recency) : (c.Exists k).2 = false := by
  rcases hb : (c.Exists k).2 with _ | _
  · rfl
  · obtain ⟨hn, hm⟩ := (Exists_iff_recency h k).1 hb
    rcases hk with hk | hk
    · rw [hn] at hk
      cases hk
    · exact absurd hm hk

theorem evictsNil_eq_false_of_backNil (c : MemoryCache K V) (k : K)
    (hb : c.backNil = false) : c.evictsNil k = false := by
  simp [MemoryCache.evictsNil, hb]

theorem evictsNil_eq_false_of_mem (c : MemoryCache K V) {k : K} {n : node V}
    (hk : c.data.lookup k = some n) : c.evictsNil k = false := by
  simp [MemoryCache.evictsNil, hk]

theorem evictsNil_eq_false_of_room (c : MemoryCache K V) (k : K)
    (hlt : c.order.Len < c.capacity) : c.evictsNil k = false := by
  simp [MemoryCache.evictsNil, not_le.2 hlt]

theorem evictsNil_iff (c : MemoryCache K V) (k : K) :
    c.evictsNil k = true
      ↔ c.data.lookup k = none ∧ c.order.Len ≥ c.capacity ∧ c.backNil = true := by
  simp [MemoryCache.evictsNil, and_assoc]

/-- When `Set` has to evict a nil key it fails with the cast error and leaves
the state as it was. -/
theorem Set_fail {c : MemoryCache K V} (h : Inv c) {k : K} (v : V)
    (he : c.evictsNil k = true) : c.Set k v = (c, some error.castK) := by
  obtain ⟨hk, hge, hb⟩ := (evictsNil_iff c k).1 he
  have hne : c.order.elems ≠ [] := by
    intro hc
    rw [backNil_of_nil c hc] at hb
    cases hb
  obtain ⟨a, z, hl, _⟩ := h.back hne
  rw [h.backNil_eq hl] at hb
  exact Set_absent_nil c hk v hge hl hb

/-- On a cache of positive capacity, `Set` of an absent key that does not have
to evict a nil key succeeds and puts the key in front of the recency order,
cut to the capacity. -/
theorem Set_absent_spec {c : MemoryCache K V} (h : Inv c) (hcap : 0 < c.capacity) {k : K}
    (hk : c.data.lookup k = none) (v : V) (he : c.evictsNil k = false) :
    (c.Set k v).2 = none ∧ (c.Set k v).1.recency = (k :: c.recency).take c.capacity.toNat ∧
      (GoKey.nan k = false → ∃ a, (c.Set k v).1.data.lookup k = some ⟨v, a⟩) := by
  by_cases hge : c.order.Len ≥ c.capacity
  · have hlen : c.recency.length = c.capacity.toNat := by
      rw [h.length_recency]
      have := h.bound
      unfold GoList.Len at hge
      omega
    have hne : c.order.elems ≠ [] := by
      intro hc
      rw [h.length_recency, hc] at hlen
      simp only [List.length_nil] at hlen
      omega
    obtain ⟨a, z, hl, _⟩ := h.back hne
    have hz : GoKey.isNil z = false := by
      rcases hz : GoKey.isNil z with _ | _
      · rfl
      · have : c.evictsNil k = true :=
          (evictsNil_iff c k).2 ⟨hk, hge, by rw [h.backNil_eq hl]; exact hz⟩
        rw [he] at this
        cases this
    rw [Set_absent_full c hk v hge hl hz]
    refine ⟨rfl, ?_, fun hn => ⟨_, GoMap.lookup_store_self _ hn _⟩⟩
    have hrec := recency_dropBack h hl (c.data.delete z)
    show k :: MemoryCache.recency
      { c with order := c.order.Remove a, data := c.data.delete z } = _
    rw [hrec]
    exact cons_dropLast_eq_take k c.recency _ (by omega) hlen
  · have hlt : c.order.Len < c.capacity := not_le.1 hge
    rw [Set_absent_room c hk v hlt]
    refine ⟨rfl, ?_, fun hn => ⟨_, GoMap.lookup_store_self _ hn _⟩⟩
    show k :: c.recency = _
    refine cons_eq_take k c.recency _ ?_
    rw [h.length_recency]
    unfold GoList.Len at hlt
    omega

/-- The `Set` of a present key succeeds and moves the key to the front. -/
theorem Set_present_spec {c : MemoryCache K V} (h : Inv c) {k : K} {n : node V}
    (hk : c.data.lookup k = some n) (v : V) :
    (c.Set k v).2 = none ∧
      (c.Set k v).1.recency = k :: c.recency.filter (fun x => x != k) ∧
      (c.Set k v).1.data = c.data.store k ⟨v, n.key⟩ := by
  rw [Set_present c hk v]
  exact ⟨rfl, recency_touch h hk _, rfl⟩

theorem Set_ok {c : MemoryCache K V} (h : Inv c) (hcap : 0 < c.capacity) (k : K) (v : V)
    (he : c.evictsNil k = false) : (c.Set k v).2 = none := by
  rcases hk : c.data.lookup k with _ | n
  · exact (Set_absent_spec h hcap hk v he).1
  · exact (Set_present_spec h hk v).1

theorem Set_ok_iff {c : MemoryCache K V} (h : Inv c) (hcap : 0 < c.capacity) (k : K) (v : V) :
    (c.Set k v).2 = none ↔ c.evictsNil k = false := by
  constructor
  · intro hok
    rcases he : c.evictsNil k with _ | _
    · rfl
    · rw [Set_fail h v he] at hok
      cases hok
  · exact Set_ok h hcap k v

theorem recency_Set {c : MemoryCache K V} (h : Inv c) (hcap : 0 < c.capacity)
    (k : K) (v : V) (he : c.evictsNil k = false) :
    (c.Set k v).1.recency =
      if k ∈ c.data then k :: c.recency.filter (fun x => x != k)
      else (k :: c.recency).take c.capacity.toNat := by
  rcases hk : c.data.lookup k with _ | n
  · rw [if_neg ((c.data.not_mem_iff k).2 hk)]
    exact (Set_absent_spec h hcap hk v he).2.1
  · rw [if_pos ((c.data.mem_iff k).2 ⟨n, hk⟩)]
    exact (Set_present_spec h hk v).2.1

theorem recency_Get [Inhabited V] {c : MemoryCache K V} (h : Inv c) (k : K) :
    (c.Get k).1.recency =
      if k ∈ c.data then k :: c.recency.filter (fun x => x != k) else c.recency := by
  rcases hk : c.data.lookup k with _ | n
  · rw [if_neg ((c.data.not_mem_iff k).2 hk), Get_absent c hk]
  · rw [if_pos ((c.data.mem_iff k).2 ⟨n, hk⟩), Get_present c hk]
    exact recency_touch h hk _

theorem recency_Remove {c : MemoryCache K V} (h : Inv c) (k : K) :
    (c.Remove k).1.recency =
      if k ∈ c.data then c.recency.filter (fun x => x != k) else c.recency := by
  rcases hk : c.data.lookup k with _ | n
  · rw [if_neg ((c.data.not_mem_iff k).2 hk), Remove_absent c hk]
  · rw [if_pos ((c.data.mem_iff k).2 ⟨n, hk⟩), Remove_present c hk]
    exact recency_delete h hk _

theorem recency_Remove_reg {c : MemoryCache K V} (h : Inv c) {k : K}
    (hn : GoKey.nan k = false) :
    (c.Remove k).1.recency = c.recency.filter (fun x => x != k) := by
  rw [recency_Remove h k]
  by_cases hm : k ∈ c.data
  · rw [if_pos hm]
  · rw [if_neg hm]
    refine (List.filter_eq_self.2 ?_).symm
    intro x hx
    exact bne_iff_ne.2 (fun hc => hm (h.mem_of_mem_recency hn (hc ▸ hx)))

/-- Whatever a `Set` does, the keys of the recency order afterwards are the
key set and keys that were there before. -/
theorem mem_recency_Set {c : MemoryCache K V} (h : Inv c) (k : K) (v : V) {x : K}
    (hx : x ∈ (c.Set k v).1.recency) : x = k ∨ x ∈ c.recency := by
  rcases hk : c.data.lookup k with _ | n
  · by_cases hge : c.order.Len ≥ c.capacity
    · by_cases he : c.order.elems = []
      · rw [Set_absent_empty c hk v hge he] at hx
        exact Or.inr hx
      · obtain ⟨a, z, hl, _⟩ := h.back he
        rcases hz : GoKey.isNil z with _ | _
        · rw [Set_absent_full c hk v hge hl hz] at hx
          have hx1 : x ∈ k :: MemoryCache.recency
              { c with order := c.order.Remove a, data := c.data.delete z } := hx
          rw [recency_dropBack h hl] at hx1
          rcases List.mem_cons.1 hx1 with h1 | h1
          · exact Or.inl h1
          · exact Or.inr (List.mem_of_mem_dropLast h1)
        · rw [Set_absent_nil c hk v hge hl hz] at hx
          exact Or.inr hx
    · rw [Set_absent_room c hk v (not_le.1 hge)] at hx
      have hx1 : x ∈ k :: c.recency := hx
      exact List.mem_cons.1 hx1
  · rw [(Set_present_spec h hk v).2.1] at hx
    rcases List.mem_cons.1 hx with h1 | h1
    · exact Or.inl h1
    · exact Or.inr (List.mem_filter.1 h1).1

theorem mem_recency_Get [Inhabited V] {c : MemoryCache K V} (h : Inv c) (k : K) {x : K}
    (hx : x ∈ (c.Get k).1.recency) : x ∈ c.recency := by
  rw [recency_Get h k] at hx
  by_cases hm : k ∈ c.data
  · rw [if_pos hm] at hx
    rcases List.mem_cons.1 hx with h1 | h1
    · rw [h1]
      exact h.mem_recency_of_mem hm
    · exact (List.mem_filter.1 h1).1
  · rw [if_neg hm] at hx
    exact hx

theorem mem_recency_Remove {c : MemoryCache K V} (h : Inv c) (k : K) {x : K}
    (hx : x ∈ (c.Remove k).1.recency) : x ∈ c.recency := by
  rw [recency_Remove h k] at hx
  by_cases hm : k ∈ c.data
  · rw [if_pos hm] at hx
    exact (List.mem_filter.1 hx).1
  · rw [if_neg hm] at hx
    exact hx

theorem GoMap.lost_delete {W : Type} (m : GoMap K W) (k : K) : (m.delete k).lost = m.lost := by
  rcases hn : GoKey.nan k with _ | _
  · rw [m.delete_reg hn]
  · rw [m.delete_nan hn]

theorem GoMap.lost_store {W : Type} (m : GoMap K W) {k : K} (hn : GoKey.nan k = false)
    (w : W) : (m.store k w).lost = m.lost := by
  rw [m.store_reg hn]

/-- A `Set` of a key that is equal to itself adds no entry that is out of
reach. -/
theorem lost_Set {c : MemoryCache K V} (h : Inv c) {k : K} (hn : GoKey.nan k = false)
    (v : V) : (c.Set k v).1.data.lost = c.data.lost := by
  rcases hk : c.data.lookup k with _ | n
  · by_cases hge : c.order.Len ≥ c.capacity
    · by_cases he : c.order.elems = []
      · rw [Set_absent_empty c hk v hge he]
      · obtain ⟨a, z, hl, _⟩ := h.back he
        rcases hz : GoKey.isNil z with _ | _
        · rw [Set_absent_full c hk v hge hl hz]
          show ((c.data.delete z).store k _).lost = _
          rw [GoMap.lost_store _ hn, GoMap.lost_delete]
        · rw [Set_absent_nil c hk v hge hl hz]
    · rw [Set_absent_room c hk v (not_le.1 hge)]
      exact GoMap.lost_store _ hn _
  · rw [Set_present c hk v]
    exact GoMap.lost_store _ hn _

theorem lost_Remove (c : MemoryCache K V) (k : K) :
    (c.Remove k).1.data.lost = c.data.lost := by
  rcases hk : c.data.lookup k with _ | n
  · rw [Remove_absent c hk]
  · rw [Remove_present c hk]
    exact GoMap.lost_delete _ _

theorem data_Get [Inhabited V] (c : MemoryCache K V) (k : K) :
    (c.Get k).1.data = c.data := by
  rcases hk : c.data.lookup k with _ | n
  · rw [Get_absent c hk]
  · rw [Get_present c hk]

/-- After a `Set` the nodes of the other keys still present are the old ones. -/
theorem lookup_Set_of_ne {c : MemoryCache K V} (h : Inv c) (k : K) (v : V) {x : K}
    (hx : x ≠ k) (hm : x ∈ (c.Set k v).1.data) :
    (c.Set k v).1.data.lookup x = c.data.lookup x := by
  rcases hk : c.data.lookup k with _ | n
  · by_cases hge : c.order.Len ≥ c.capacity
    · by_cases he : c.order.elems = []
      · rw [Set_absent_empty c hk v hge he]
      · obtain ⟨a, z, hl, _⟩ := h.back he
        rcases hz : GoKey.isNil z with _ | _
        · rw [Set_absent_full c hk v hge hl hz] at hm ⊢
          have hm1 : x ∈ (c.data.delete z).store k
              ⟨v, ((c.order.Remove a).PushFront (some k)).2⟩ := hm
          show ((c.data.delete z).store k _).lookup x = _
          rw [GoMap.lookup_store_of_ne _ _ _ hx]
          obtain ⟨w, hw⟩ := (GoMap.mem_iff _ x).1 hm1
          rw [GoMap.lookup_store_of_ne _ _ _ hx] at hw
          by_cases hxz : x = z
          · rw [hxz, GoMap.lookup_delete_self] at hw
            cases hw
          · exact GoMap.lookup_delete_of_ne _ _ hxz
        · rw [Set_absent_nil c hk v hge hl hz]
    · rw [Set_absent_room c hk v (not_le.1 hge)]
      exact GoMap.lookup_store_of_ne _ _ _ hx
  · rw [Set_present c hk v]
    exact GoMap.lookup_store_of_ne _ _ _ hx

theorem moveToFront_head (l : GoList K) (x : Element K) (t : List (Element K))
    (hl : l.elems = x :: t) : l.MoveToFront x.addr = l := by
  simp [GoList.MoveToFront, hl]

/-- After a successful `Set` the element of the key is the first of the list
and, if the key is equal to itself, the node of the key holds the value and
points at that element. -/
theorem Set_head {c : MemoryCache K V} (h : Inv c) (k : K) (v : V)
    (hok : (c.Set k v).2 = none) :
    ∃ a t, (c.Set k v).1.order.elems = ⟨a, some k⟩ :: t ∧
      (GoKey.nan k = false → (c.Set k v).1.data.lookup k = some ⟨v, a⟩) := by
  rcases hk : c.data.lookup k with _ | n
  · by_cases hge : c.order.Len ≥ c.capacity
    · by_cases he : c.order.elems = []
      · rw [Set_absent_empty c hk v hge he] at hok
        cases hok
      · obtain ⟨a, z, hl, _⟩ := h.back he
        rcases hz : GoKey.isNil z with _ | _
        · rw [Set_absent_full c hk v hge hl hz]
          exact ⟨_, _, rfl, fun hn => GoMap.lookup_store_self _ hn _⟩
        · rw [Set_absent_nil c hk v hge hl hz] at hok
          cases hok
    · rw [Set_absent_room c hk v (not_le.1 hge)]
      exact ⟨_, _, rfl, fun hn => GoMap.lookup_store_self _ hn _⟩
  · rw [Set_present c hk v]
    exact ⟨n.key, _, moveToFront_elems c.order _ (h.ofLookup hk).2 h.nodup,
      fun hn => GoMap.lookup_store_self _ hn _⟩

theorem lookup_Set_self {c : MemoryCache K V} (h : Inv c) {k : K}
    (hn : GoKey.nan k = false) (v : V) (hok : (c.Set k v).2 = none) :
    ∃ a, (c.Set k v).1.data.lookup k = some ⟨v, a⟩ := by
  obtain ⟨a, _, _, h2⟩ := Set_head h k v hok
  exact ⟨a, h2 hn⟩

theorem Inv.elems_eq_nil {c : MemoryCache K V} (h : Inv c) (hcap : c.capacity ≤ 0) :
    c.order.elems = [] := by
  have hb := h.bound
  have h0 : c.capacity.toNat = 0 := Int.toNat_eq_zero.2 hcap
  rw [h0] at hb
  exact List.length_eq_zero.1 (Nat.le_zero.1 hb)

theorem existsN_eq (c : MemoryCache K V) (k : K) (n : Nat) : c.existsN k n = c := by
  induction n with
  | zero => rfl
  | succ n ih => exact ih

theorem filter_bne_cons_filter (k : K) (r : List K) :
    (k :: r.filter (fun x => x != k)).filter (fun x => x != k)
      = r.filter (fun x => x != k) := by
  simp [List.filter_cons, List.filter_filter]

/-! ## Caches without keys unequal to themselves, and without nil keys -/

theorem clean_new (capacity : Int) : Clean (New K V capacity) :=
  ⟨rfl, fun k hk => absurd hk (List.not_mem_nil k)⟩

theorem clean_Set {c : MemoryCache K V} (h : Inv c) (hc : Clean c) {k : K}
    (hn : GoKey.nan k = false) (v : V) : Clean (c.Set k v).1 := by
  refine ⟨by rw [lost_Set h hn v]; exact hc.lost, ?_⟩
  intro x hx
  rcases mem_recency_Set h k v hx with h1 | h1
  · rw [h1]
    exact hn
  · exact hc.keys x h1

theorem clean_Remove {c : MemoryCache K V} (h : Inv c) (hc : Clean c) (k : K) :
    Clean (c.Remove k).1 :=
  ⟨by rw [lost_Remove]; exact hc.lost, fun x hx => hc.keys x (mem_recency_Remove h k hx)⟩

theorem clean_Get [Inhabited V] {c : MemoryCache K V} (h : Inv c) (hc : Clean c) (k : K) :
    Clean (c.Get k).1 :=
  ⟨by rw [data_Get]; exact hc.lost, fun x hx => hc.keys x (mem_recency_Get h k hx)⟩

theorem clean_call [Inhabited V] {c : MemoryCache K V} (h : Inv c) (hc : Clean c)
    (x : Call K V) (hx : x.setsNaN = false) : Clean (c.call x).1 := by
  cases x with
  | Set key val => exact clean_Set h hc hx val
  | Remove key => exact clean_Remove h hc key
  | Get key => exact clean_Get h hc key
  | Exists key => exact hc
  | Size => exact hc

theorem clean_run [Inhabited V] {c : MemoryCache K V} (h : Inv c) (hc : Clean c)
    (cs : List (Call K V)) (hcs : ∀ x ∈ cs, x.setsNaN = false) : Clean (c.run cs) := by
  induction cs generalizing c with
  | nil => exact hc
  | cons x cs ih =>
    exact ih (h.call x) (clean_call h hc x (hcs x (List.mem_cons_self _ _)))
      (fun y hy => hcs y (List.mem_cons_of_mem _ hy))

theorem ReachableNoNaN.reachable [Inhabited V] {capacity : Int} {c : MemoryCache K V}
    (h : ReachableNoNaN capacity c) : Reachable capacity c := by
  obtain ⟨cs, _, hc⟩ := h
  exact ⟨cs, hc⟩

theorem ReachableNoNaN.clean [Inhabited V] {capacity : Int} {c : MemoryCache K V}
    (h : ReachableNoNaN capacity c) : Clean c := by
  obtain ⟨cs, hcs, rfl⟩ := h
  exact clean_run (Inv.new capacity) (clean_new capacity) cs hcs

theorem Clean.mem_recency_iff {c : MemoryCache K V} (hc : Clean c) (h : Inv c) (k : K) :
    k ∈ c.recency ↔ k ∈ c.data :=
  ⟨fun hm => h.mem_of_mem_recency (hc.keys k hm) hm, h.mem_recency_of_mem⟩

theorem Clean.filter_regular {c : MemoryCache K V} (hc : Clean c) :
    c.recency.filter (fun k => !GoKey.nan k) = c.recency :=
  List.filter_eq_self.2 (fun k hk => by simp [hc.keys k hk])

theorem Clean.nodup_recency {c : MemoryCache K V} (hc : Clean c) (h : Inv c) :
    c.recency.Nodup := by
  have := h.nodup_regular
  rwa [hc.filter_regular] at this

theorem Clean.len_eq {c : MemoryCache K V} (hc : Clean c) (h : Inv c) :
    c.data.len = c.order.elems.length := by
  unfold GoMap.len
  rw [h.card_reg, hc.filter_regular, hc.lost, h.length_recency]
  rfl

theorem Clean.size_eq_len {c : MemoryCache K V} (hc : Clean c) (h : Inv c) :
    c.Size.2 = c.order.Len := by
  show ((c.data.len : Nat) : Int) = (c.order.elems.length : Int)
  rw [hc.len_eq h]

theorem Clean.size_le {c : MemoryCache K V} (hc : Clean c) (h : Inv c)
    (hcap : 0 < c.capacity) : c.Size.2 ≤ c.capacity := by
  rw [hc.size_eq_len h]
  have := h.bound
  unfold GoList.Len
  omega

theorem NoNil.backNil_false {c : MemoryCache K V} (hn : NoNil c) : c.backNil = false := by
  unfold MemoryCache.backNil
  rcases hl : c.recency.getLast? with _ | z
  · rfl
  · exact hn z (List.mem_of_getLast?_eq_some hl)

theorem NoNil.evictsNil_false {c : MemoryCache K V} (hn : NoNil c) (k : K) :
    c.evictsNil k = false :=
  evictsNil_eq_false_of_backNil c k hn.backNil_false

theorem noNil_new (capacity : Int) : NoNil (New K V capacity) :=
  fun k hk => absurd hk (List.not_mem_nil k)

theorem noNil_Set {c : MemoryCache K V} (h : Inv c) (hn : NoNil c) {k : K}
    (hk : GoKey.isNil k = false) (v : V) : NoNil (c.Set k v).1 := by
  intro x hx
  rcases mem_recency_Set h k v hx with h1 | h1
  · rw [h1]
    exact hk
  · exact hn x h1

theorem noNil_call [Inhabited V] {c : MemoryCache K V} (h : Inv c) (hn : NoNil c)
    (x : Call K V) (hx : x.setsNil = false) : NoNil (c.call x).1 := by
  cases x with
  | Set key val => exact noNil_Set h hn hx val
  | Remove key => exact fun y hy => hn y (mem_recency_Remove h key hy)
  | Get key => exact fun y hy => hn y (mem_recency_Get h key hy)
  | Exists key => exact hn
  | Size => exact hn

theorem noNil_run [Inhabited V] {c : MemoryCache K V} (h : Inv c) (hn : NoNil c)
    (cs : List (Call K V)) (hcs : ∀ x ∈ cs, x.setsNil = false) : NoNil (c.run cs) := by
  induction cs generalizing c with
  | nil => exact hn
  | cons x cs ih =>
    exact ih (h.call x) (noNil_call h hn x (hcs x (List.mem_cons_self _ _)))
      (fun y hy => hcs y (List.mem_cons_of_mem _ hy))

/-! ## Setting a list of keys -/

theorem take_append_take (A B : List K) (N : Nat) :
    (A ++ B.take N).take N = (A ++ B).take N := by
  rw [List.take_append_eq_append_take, List.take_append_eq_append_take, List.take_take,
    Nat.min_eq_left (Nat.sub_le _ _)]

theorem mem_drop_of_getLast (l : List K) (n : Nat) (hn : n < l.length) (z : K)
    (hl : l.getLast? = some z) : z ∈ l.drop n := by
  have h1 : (l.drop n).getLast? = some z := by
    rw [List.getLast?_drop, if_neg (by omega), hl]
  exact List.mem_of_getLast?_eq_some h1

theorem mem_drop_append_take (A B : List K) (N : Nat) {z : K}
    (hz : z ∈ (A ++ B.take N).drop N) : z ∈ (A ++ B).drop N := by
  rw [List.drop_append_eq_append_drop] at hz ⊢
  rcases List.mem_append.1 hz with h1 | h1
  · exact List.mem_append_left _ h1
  · rw [List.drop_take] at h1
    exact List.mem_append_right _ (List.mem_of_mem_take h1)

theorem take_reverse_eq_drop (l : List K) (N k : Nat) (hlen : l.length = N + k) :
    l.reverse.take N = (l.drop k).reverse := by
  conv_lhs => rw [← List.take_append_drop k l]
  rw [List.reverse_append]
  exact List.take_left' (by rw [List.length_reverse, List.length_drop]; omega)

theorem drop_reverse_eq_take (l : List K) (N k : Nat) (hlen : l.length = N + k) :
    l.reverse.drop N = (l.take k).reverse := by
  conv_lhs => rw [← List.take_append_drop k l]
  rw [List.reverse_append]
  exact List.drop_left' (by rw [List.length_reverse, List.length_drop]; omega)

/-- Setting pairwise distinct absent keys, all equal to themselves, one after
the other, when no key that has to leave is nil: every `Set` succeeds and the
recency order is the keys, last set first, followed by the old order, cut to
the capacity. -/
theorem setAll_spec {c : MemoryCache K V} (h : Inv c) (hc : Clean c) (hcap : 0 < c.capacity)
    (kvs : List (K × V)) (hnd : (kvs.map Prod.fst).Nodup)
    (hdisj : ∀ x ∈ kvs.map Prod.fst, x ∉ c.recency)
    (hnan : ∀ x ∈ kvs.map Prod.fst, GoKey.nan x = false)
    (hnil : ∀ z ∈ ((kvs.map Prod.fst).reverse ++ c.recency).drop c.capacity.toNat,
      GoKey.isNil z = false) :
    (c.setAll kvs).2 = true ∧ Inv (c.setAll kvs).1 ∧ Clean (c.setAll kvs).1 ∧
      (c.setAll kvs).1.recency
        = ((kvs.map Prod.fst).reverse ++ c.recency).take c.capacity.toNat := by
  induction kvs generalizing c with
  | nil =>
    refine ⟨rfl, h, hc, ?_⟩
    show c.recency = _
    rw [List.map_nil, List.reverse_nil, List.nil_append]
    refine (List.take_of_length_le ?_).symm
    rw [h.length_recency]
    exact h.bound
  | cons kv rest ih =>
    rw [List.map_cons, List.nodup_cons] at hnd
    have hk : c.data.lookup kv.1 = none :=
      lookup_eq_none_of_not_mem h (hdisj kv.1 (by simp))
    have hkn : GoKey.nan kv.1 = false := hnan kv.1 (by simp)
    have he : c.evictsNil kv.1 = false := by
      rcases he : c.evictsNil kv.1 with _ | _
      · rfl
      · obtain ⟨_, hge, hb⟩ := (evictsNil_iff c kv.1).1 he
        have hne : c.order.elems ≠ [] := by
          intro hc1
          rw [backNil_of_nil c hc1] at hb
          cases hb
        obtain ⟨a, z, hl, hz⟩ := h.back hne
        rw [h.backNil_eq hl] at hb
        have hlen : c.recency.length = c.capacity.toNat := by
          rw [h.length_recency]
          have := h.bound
          unfold GoList.Len at hge
          omega
        have hmem : z ∈ (((kv :: rest).map Prod.fst).reverse ++ c.recency).drop
            c.capacity.toNat := by
          refine mem_drop_of_getLast _ _ ?_ z ?_
          · rw [List.length_append, List.length_reverse, List.length_map, List.length_cons,
              hlen]
            omega
          · rw [List.getLast?_append, hz]
            rfl
        rw [hnil z hmem] at hb
        cases hb
    obtain ⟨hok, hrec, _⟩ := Set_absent_spec h hcap hk kv.2 he
    have hcap1 : (c.Set kv.1 kv.2).1.capacity = c.capacity := Set_capacity c kv.1 kv.2
    have hdisj1 : ∀ x ∈ rest.map Prod.fst, x ∉ (c.Set kv.1 kv.2).1.recency := by
      intro x hx hc1
      rw [hrec] at hc1
      rcases List.mem_cons.1 (List.mem_of_mem_take hc1) with rfl | hm
      · exact hnd.1 hx
      · exact hdisj x (List.mem_cons_of_mem _ hx) hm
    have hnil1 : ∀ z ∈ ((rest.map Prod.fst).reverse ++ (c.Set kv.1 kv.2).1.recency).drop
        (c.Set kv.1 kv.2).1.capacity.toNat, GoKey.isNil z = false := by
      intro z hz
      rw [hcap1, hrec] at hz
      have := mem_drop_append_take _ _ _ hz
      refine hnil z ?_
      rw [List.map_cons, List.reverse_cons, List.append_assoc]
      exact this
    obtain ⟨h1, h2, h3, h4⟩ := ih (h.Set kv.1 kv.2) (clean_Set h hc hkn kv.2)
      (by rw [hcap1]; exact hcap) hnd.2 hdisj1
      (fun x hx => hnan x (List.mem_cons_of_mem _ hx)) hnil1
    refine ⟨?_, h2, h3, ?_⟩
    · show ((c.Set kv.1 kv.2).2.isNone && ((c.Set kv.1 kv.2).1.setAll rest).2) = true
      rw [hok, h1]
      rfl
    · show ((c.Set kv.1 kv.2).1.setAll rest).1.recency = _
      rw [h4, hcap1, hrec, take_append_take, List.map_cons, List.reverse_cons,
        List.append_assoc]
      rfl

/-! ## Simulation of the reference model -/

theorem abs_filter [Inhabited V] (c : MemoryCache K V) (k : K) :
    c.abs.filter (fun p => p.1 != k)
      = (c.recency.filter (fun x => x != k)).map (fun x => (x, c.valueOf x)) := by
  unfold MemoryCache.abs
  rw [List.filter_map]
  rfl

theorem abs_any [Inhabited V] (c : MemoryCache K V) (k : K) :
    c.abs.any (fun p => p.1 == k) = decide (k ∈ c.recency) := by
  unfold MemoryCache.abs
  rw [Bool.eq_iff_iff, List.any_eq_true, decide_eq_true_eq]
  constructor
  · rintro ⟨p, hp, hk⟩
    obtain ⟨x, hx, rfl⟩ := List.mem_map.1 hp
    have : x = k := by simpa using hk
    exact this ▸ hx
  · intro hk
    exact ⟨(k, c.valueOf k), List.mem_map.2 ⟨k, hk, rfl⟩, by simp⟩

theorem find_key_map (r : List K) (g : K → V) (k : K) :
    (r.map (fun x => (x, g x))).find? (fun p => p.1 == k)
      = if k ∈ r then some (k, g k) else none := by
  induction r with
  | nil => rfl
  | cons a r ih =>
    by_cases hak : a = k
    · subst hak
      simp
    · have hne : (a == k) = false := by simpa using hak
      rw [List.map_cons, List.find?_cons_of_neg _ (by simp [hak]), ih]
      have hka : ¬ k = a := fun hc => hak hc.symm
      simp [hka]

theorem recency_Set_take {c : MemoryCache K V} (h : Inv c) (hcap : 0 < c.capacity)
    {k : K} (hn : GoKey.nan k = false) (v : V) (he : c.evictsNil k = false) :
    (c.Set k v).1.recency
      = (k :: c.recency.filter (fun x => x != k)).take c.capacity.toNat := by
  have h1 := h.Set k v
  have hrec := recency_Set h hcap k v he
  by_cases hk : k ∈ c.data
  · rw [if_pos hk] at hrec
    rw [← hrec]
    refine (List.take_of_length_le ?_).symm
    rw [h1.length_recency, ← Set_capacity c k v]
    exact h1.bound
  · rw [if_neg hk] at hrec
    have hf : c.recency.filter (fun x => x != k) = c.recency :=
      List.filter_eq_self.2 (fun x hx => bne_iff_ne.2
        (fun hc => hk (h.mem_of_mem_recency hn (hc ▸ hx))))
    rw [hf, hrec]

theorem valueOf_congr [Inhabited V] {c1 c2 : MemoryCache K V} {x : K}
    (hl : c1.data.lookup x = c2.data.lookup x) : c1.valueOf x = c2.valueOf x := by
  unfold MemoryCache.valueOf
  rw [hl]

theorem abs_Set [Inhabited V] {c : MemoryCache K V} (h : Inv c) (hcl : Clean c)
    (hcap : 0 < c.capacity) {k : K} (hn : GoKey.nan k = false) (v : V)
    (he : c.evictsNil k = false) :
    (c.Set k v).1.abs = (Naive.Set c.capacity c.abs k v).1 := by
  have h1 := h.Set k v
  have hcl1 := clean_Set h hcl hn v
  obtain ⟨a, ha⟩ := lookup_Set_self h hn v (Set_ok h hcap k v he)
  have hval : ∀ x ∈ (c.Set k v).1.recency,
      (fun y => (y, (c.Set k v).1.valueOf y)) x
        = (fun y => if y = k then (k, v) else (y, c.valueOf y)) x := by
    intro x hx
    by_cases hxk : x = k
    · subst hxk
      simp [MemoryCache.valueOf, ha]
    · simp only [if_neg hxk]
      rw [valueOf_congr (lookup_Set_of_ne h k v hxk ((hcl1.mem_recency_iff h1 x).1 hx))]
  have hrest : (c.recency.filter (fun x => x != k)).map
        (fun y => if y = k then (k, v) else (y, c.valueOf y))
      = c.abs.filter (fun p => p.1 != k) := by
    rw [abs_filter]
    refine List.map_congr_left (fun x hx => ?_)
    have hne : x ≠ k := bne_iff_ne.1 (List.mem_filter.1 hx).2
    simp only [if_neg hne]
  show (c.Set k v).1.recency.map (fun y => (y, (c.Set k v).1.valueOf y)) = _
  rw [List.map_congr_left hval, recency_Set_take h hcap hn v he, List.map_take,
    List.map_cons, hrest]
  simp only [if_true]
  rfl

theorem lookup_Remove_of_ne (c : MemoryCache K V) (k : K) {x : K} (hx : x ≠ k) :
    (c.Remove k).1.data.lookup x = c.data.lookup x := by
  rcases hk : c.data.lookup k with _ | n
  · rw [Remove_absent c hk]
  · rw [Remove_present c hk]
    exact GoMap.lookup_delete_of_ne _ _ hx

theorem call_abs [Inhabited V] {c : MemoryCache K V} (h : Inv c) (hcl : Clean c)
    (hnn : NoNil c) (hcap : 0 < c.capacity) (x : Call K V) (hx : x.setsNaN = false) :
    (c.call x).1.abs = (Naive.call c.capacity c.abs x).1 ∧
      (c.call x).2 = (Naive.call c.capacity c.abs x).2 := by
  cases x with
  | Set key val =>
    refine ⟨abs_Set h hcl hcap hx val (hnn.evictsNil_false key), ?_⟩
    show Ret.err (c.Set key val).2 = Ret.err none
    rw [Set_ok h hcap key val (hnn.evictsNil_false key)]
  | Remove key =>
    have hany := abs_any c key
    show (c.Remove key).1.abs = (Naive.Remove c.abs key).1 ∧
      Ret.err (c.Remove key).2 = Ret.err (Naive.Remove c.abs key).2
    rcases hk : c.data.lookup key with _ | n
    · have hnot : key ∉ c.recency := fun hm =>
        (c.data.not_mem_iff key).2 hk ((hcl.mem_recency_iff h key).1 hm)
      rw [decide_eq_false hnot] at hany
      have hN : Naive.Remove c.abs key = (c.abs, some (error.noEntry key)) := by
        simp only [Naive.Remove, hany, Bool.false_eq_true, if_false]
      rw [Remove_absent c hk, hN]
      exact ⟨rfl, rfl⟩
    · have hin : key ∈ c.recency :=
        h.mem_recency_of_mem ((c.data.mem_iff key).2 ⟨n, hk⟩)
      rw [decide_eq_true hin] at hany
      have hN : Naive.Remove c.abs key = (c.abs.filter (fun p => p.1 != key), none) := by
        simp only [Naive.Remove, hany, if_true]
      rw [hN]
      refine ⟨?_, by rw [Remove_present c hk]⟩
      rw [abs_filter]
      show (c.Remove key).1.recency.map (fun y => (y, (c.Remove key).1.valueOf y)) = _
      rw [recency_Remove h key, if_pos ((c.data.mem_iff key).2 ⟨n, hk⟩)]
      refine List.map_congr_left (fun y hy => ?_)
      have hne : y ≠ key := bne_iff_ne.1 (List.mem_filter.1 hy).2
      rw [valueOf_congr (lookup_Remove_of_ne c key hne)]
  | Get key =>
    have hfind : c.abs.find? (fun p => p.1 == key)
        = if key ∈ c.recency then some (key, c.valueOf key) else none :=
      find_key_map c.recency c.valueOf key
    show (c.Get key).1.abs = (Naive.Get c.abs key).1 ∧
      Ret.val (c.Get key).2.1 (c.Get key).2.2
        = Ret.val (Naive.Get c.abs key).2.1 (Naive.Get c.abs key).2.2
    rcases hk : c.data.lookup key with _ | n
    · have hnot : key ∉ c.recency := fun hm =>
        (c.data.not_mem_iff key).2 hk ((hcl.mem_recency_iff h key).1 hm)
      rw [if_neg hnot] at hfind
      have hN : Naive.Get c.abs key = (c.abs, (default, false)) := by
        simp only [Naive.Get, hfind]
      rw [Get_absent c hk, hN]
      exact ⟨rfl, rfl⟩
    · have hin : key ∈ c.recency :=
        h.mem_recency_of_mem ((c.data.mem_iff key).2 ⟨n, hk⟩)
      rw [if_pos hin] at hfind
      have hv : c.valueOf key = n.data := by
        simp [MemoryCache.valueOf, hk]
      have hN : Naive.Get c.abs key
          = ((key, n.data) :: c.abs.filter (fun q => q.1 != key), (n.data, true)) := by
        simp only [Naive.Get, hfind, hv]
      rw [Get_present c hk, hN]
      refine ⟨?_, rfl⟩
      rw [abs_filter]
      show (MemoryCache.recency { c with order := c.order.MoveToFront n.key }).map
        (fun y => (y, c.valueOf y)) = _
      rw [recency_touch h hk c.data, List.map_cons, hv]
  | Exists key =>
    refine ⟨rfl, ?_⟩
    show Ret.bool (c.data.lookup key).isSome = Ret.bool (c.abs.any (fun p => p.1 == key))
    rw [abs_any]
    congr 1
    rw [Bool.eq_iff_iff, decide_eq_true_eq, hcl.mem_recency_iff h]
    exact Iff.rfl
  | Size =>
    refine ⟨rfl, ?_⟩
    show Ret.int ((c.data.len : Nat) : Int) = Ret.int ((c.abs.length : Nat) : Int)
    rw [hcl.len_eq h, ← h.length_recency]
    simp [MemoryCache.abs]

theorem results_eq [Inhabited V] {c : MemoryCache K V} (h : Inv c) (hcl : Clean c)
    (hnn : NoNil c) (hcap : 0 < c.capacity) (cs : List (Call K V))
    (hcs : ∀ x ∈ cs, x.setsNaN = false ∧ x.setsNil = false) :
    c.results cs = Naive.results c.capacity c.abs cs := by
  induction cs generalizing c with
  | nil => rfl
  | cons x cs ih =>
    obtain ⟨hx1, hx2⟩ := hcs x (List.mem_cons_self _ _)
    obtain ⟨h1, h2⟩ := call_abs h hcl hnn hcap x hx1
    have hc := call_capacity c x
    show (c.call x).2 :: (c.call x).1.results cs
      = (Naive.call c.capacity c.abs x).2
        :: Naive.results c.capacity (Naive.call c.capacity c.abs x).1 cs
    rw [ih (h.call x) (clean_call h hcl x hx1) (noNil_call h hnn x hx2)
      (by rw [hc]; exact hcap) (fun y hy => hcs y (List.mem_cons_of_mem _ hy)), hc, h1, h2]

/-! ## The recency order and the log of touches -/

theorem before_cons (a x y : K) (l : List K) :
    (a :: l).indexOf x < (a :: l).indexOf y ↔ y ≠ a ∧ (x = a ∨ l.indexOf x < l.indexOf y) := by
  by_cases hx : x = a
  · by_cases hy : y = a
    · simp [hx, hy]
    · rw [List.indexOf_cons_eq _ hx.symm, List.indexOf_cons_ne _ (Ne.symm hy)]
      simp [hx, hy]
  · by_cases hy : y = a
    · rw [List.indexOf_cons_eq _ hy.symm]
      simp [hy]
    · rw [List.indexOf_cons_ne _ (Ne.symm hx), List.indexOf_cons_ne _ (Ne.symm hy)]
      simp [hx, hy]

theorem age_cons_lt (t : Option K) (log : List (Option K)) (x y : K) :
    age (t :: log) x < age (t :: log) y
      ↔ t ≠ some y ∧ (t = some x ∨ age log x < age log y) := by
  show (if t = some x then 0 else age log x + 1) < (if t = some y then 0 else age log y + 1)
    ↔ _
  by_cases hx : t = some x
  · by_cases hy : t = some y
    · rw [if_pos hx, if_pos hy]
      exact ⟨fun h => absurd h (Nat.lt_irrefl 0), fun h => absurd hy h.1⟩
    · rw [if_pos hx, if_neg hy]
      exact ⟨fun _ => ⟨hy, Or.inl hx⟩, fun _ => Nat.succ_pos _⟩
  · by_cases hy : t = some y
    · rw [if_neg hx, if_pos hy]
      exact ⟨fun h => absurd h (Nat.not_lt_zero _), fun h => absurd hy h.1⟩
    · rw [if_neg hx, if_neg hy]
      exact ⟨fun h => ⟨hy, Or.inr (Nat.lt_of_succ_lt_succ h)⟩,
        fun h => Nat.succ_lt_succ (h.2.resolve_left hx)⟩

theorem before_filter (l : List K) (k x y : K) (hx : x ≠ k) (hy : y ≠ k) :
    (l.filter (fun z => z != k)).indexOf x < (l.filter (fun z => z != k)).indexOf y
      ↔ l.indexOf x < l.indexOf y := by
  induction l with
  | nil => rfl
  | cons a t ih =>
    by_cases hak : a = k
    · have h1 : (a != k) = false := by simp [hak]
      rw [List.filter_cons_of_neg (by simp [hak]), ih, before_cons]
      have hxa : x ≠ a := hak ▸ hx
      have hya : y ≠ a := hak ▸ hy
      simp [hxa, hya]
    · rw [List.filter_cons_of_pos (by simpa using hak), before_cons, before_cons, ih]

theorem indexOf_take (l : List K) (n : Nat) (x : K) (hx : x ∈ l.take n) :
    (l.take n).indexOf x = l.indexOf x := by
  induction l generalizing n with
  | nil => simp
  | cons a t ih =>
    cases n with
    | zero => simp at hx
    | succ n =>
      rw [List.take_succ_cons] at hx ⊢
      by_cases hxa : a = x
      · rw [List.indexOf_cons_eq _ hxa, List.indexOf_cons_eq _ hxa]
      · rw [List.indexOf_cons_ne _ hxa, List.indexOf_cons_ne _ hxa]
        rcases List.mem_cons.1 hx with h1 | h1
        · exact absurd h1.symm hxa
        · rw [ih n h1]

/-- A touch of `k` that leaves an order agreeing in relative positions with
`k` moved to the front keeps the agreement with the log. -/
theorem Agrees.move_front {r r1 : List K} {log : List (Option K)} (hq : Agrees r log) (k : K)
    (hmem : ∀ x ∈ r1, x = k ∨ x ∈ r)
    (hord : ∀ x ∈ r1, ∀ y ∈ r1, (r1.indexOf x < r1.indexOf y
      ↔ (k :: r.filter (fun z => z != k)).indexOf x
          < (k :: r.filter (fun z => z != k)).indexOf y)) :
    Agrees r1 (some k :: log) := by
  refine ⟨?_, ?_⟩
  · intro x hx
    rcases hmem x hx with rfl | h1
    · exact List.mem_cons_self _ _
    · exact List.mem_cons_of_mem _ (hq.1 x h1)
  · intro x hx y hy
    rw [hord x hx y hy, before_cons, age_cons_lt]
    by_cases hyk : y = k
    · simp [hyk]
    · by_cases hxk : x = k
      · simp [hxk, hyk, Ne.symm hyk]
      · have hxr : x ∈ r := (hmem x hx).resolve_left hxk
        have hyr : y ∈ r := (hmem y hy).resolve_left hyk
        rw [before_filter r k x y hxk hyk, hq.2 x hxr y hyr]
        simp [hxk, hyk, Ne.symm hxk, Ne.symm hyk]

/-- A call that touches no key and deletes a key from the order keeps the
agreement with the log. -/
theorem Agrees.skip_filter {r : List K} {log : List (Option K)} (hq : Agrees r log) (k : K) :
    Agrees (r.filter (fun z => z != k)) (none :: log) := by
  refine ⟨?_, ?_⟩
  · intro x hx
    exact List.mem_cons_of_mem _ (hq.1 x (List.mem_filter.1 hx).1)
  · intro x hx y hy
    obtain ⟨hx1, hx2⟩ := List.mem_filter.1 hx
    obtain ⟨hy1, hy2⟩ := List.mem_filter.1 hy
    rw [before_filter r k x y (bne_iff_ne.1 hx2) (bne_iff_ne.1 hy2), hq.2 x hx1 y hy1,
      age_cons_lt]
    simp

/-- A call that touches no key and leaves the order as it is keeps the
agreement with the log. -/
theorem Agrees.skip {r : List K} {log : List (Option K)} (hq : Agrees r log) :
    Agrees r (none :: log) := by
  refine ⟨?_, ?_⟩
  · intro x hx
    exact List.mem_cons_of_mem _ (hq.1 x hx)
  · intro x hx y hy
    rw [hq.2 x hx y hy, age_cons_lt]
    simp

theorem runLog_fst [Inhabited V] (c : MemoryCache K V) (log : List (Option K))
    (cs : List (Call K V)) : (c.runLog log cs).1 = c.run cs := by
  induction cs generalizing c log with
  | nil => rfl
  | cons x cs ih => exact ih (c.call x).1 (c.touched x :: log)

theorem before_cons_filter (k x y : K) (r : List K) :
    (k :: r.filter (fun z => z != k)).indexOf x < (k :: r.filter (fun z => z != k)).indexOf y
      ↔ (k :: r).indexOf x < (k :: r).indexOf y := by
  rw [before_cons, before_cons]
  by_cases hyk : y = k
  · simp [hyk]
  · by_cases hxk : x = k
    · simp [hxk]
    · rw [before_filter r k x y hxk hyk]

theorem call_agrees [Inhabited V] {c : MemoryCache K V} (h : Inv c) (hcap : 0 < c.capacity)
    {log : List (Option K)} (hq : Agrees c.recency log) (x : Call K V) :
    Agrees (c.call x).1.recency (c.touched x :: log) := by
  cases x with
  | Set key val =>
    rcases he : c.evictsNil key with _ | _
    · have ht : c.touched (Call.Set key val) = some key := by
        show (if (c.Set key val).2.isNone then some key else none) = some key
        rw [Set_ok h hcap key val he]
        rfl
      rw [ht]
      show Agrees (c.Set key val).1.recency (some key :: log)
      have hrec := recency_Set h hcap key val he
      by_cases hm : key ∈ c.data
      · rw [if_pos hm] at hrec
        rw [hrec]
        refine hq.move_front key ?_ (fun _ _ _ _ => Iff.rfl)
        intro x hx
        rcases List.mem_cons.1 hx with h1 | h1
        · exact Or.inl h1
        · exact Or.inr (List.mem_filter.1 h1).1
      · rw [if_neg hm] at hrec
        refine hq.move_front key ?_ ?_
        · intro x hx
          rw [hrec] at hx
          exact List.mem_cons.1 (List.mem_of_mem_take hx)
        · intro x hx y hy
          rw [hrec] at hx hy ⊢
          rw [indexOf_take _ _ x hx, indexOf_take _ _ y hy, before_cons_filter]
    · have hs := Set_fail h val he
      have ht : c.touched (Call.Set key val) = none := by
        show (if (c.Set key val).2.isNone then some key else none) = none
        rw [hs]
        rfl
      rw [ht]
      show Agrees (c.Set key val).1.recency (none :: log)
      rw [hs]
      exact hq.skip
  | Remove key =>
    show Agrees (c.Remove key).1.recency (none :: log)
    rw [recency_Remove h key]
    by_cases hm : key ∈ c.data
    · rw [if_pos hm]
      exact hq.skip_filter key
    · rw [if_neg hm]
      exact hq.skip
  | Get key =>
    rcases hk : c.data.lookup key with _ | n
    · have ht : c.touched (Call.Get key) = none := by
        show (if (c.Get key).2.2 then some key else none) = none
        rw [Get_absent c hk]
        rfl
      rw [ht]
      show Agrees (c.Get key).1.recency (none :: log)
      rw [Get_absent c hk]
      exact hq.skip
    · have ht : c.touched (Call.Get key) = some key := by
        show (if (c.Get key).2.2 then some key else none) = some key
        rw [Get_present c hk]
        rfl
      rw [ht]
      show Agrees (c.Get key).1.recency (some key :: log)
      rw [Get_present c hk, recency_touch h hk c.data]
      refine hq.move_front key ?_ (fun _ _ _ _ => Iff.rfl)
      intro x hx
      rcases List.mem_cons.1 hx with h1 | h1
      · exact Or.inl h1
      · exact Or.inr (List.mem_filter.1 h1).1
  | Exists key => exact hq.skip
  | Size => exact hq.skip

theorem runLog_agrees [Inhabited V] {c : MemoryCache K V} (h : Inv c)
    (hcap : 0 < c.capacity) {log : List (Option K)} (hq : Agrees c.recency log)
    (cs : List (Call K V)) : Agrees (c.runLog log cs).1.recency (c.runLog log cs).2 := by
  induction cs generalizing c log with
  | nil => exact hq
  | cons x cs ih =>
    exact ih (h.call x) (by rw [call_capacity]; exact hcap) (call_agrees h hcap hq x)

theorem indexOf_lt_getLast (r : List K) (z : K) (hl : r.getLast? = some z)
    (hz1 : z ∉ r.dropLast) (y : K) (hy : y ∈ r) (hyz : y ≠ z) :
    r.indexOf y < r.indexOf z := by
  have hr : r = r.dropLast ++ [z] := (List.dropLast_append_getLast? z hl).symm
  rw [hr] at hy
  have hy1 : y ∈ r.dropLast := by
    rcases List.mem_append.1 hy with h1 | h1
    · exact h1
    · exact absurd (List.mem_singleton.1 h1) hyz
  rw [hr, List.indexOf_append_of_mem hy1, List.indexOf_append_of_not_mem hz1]
  exact Nat.lt_add_right _ (List.indexOf_lt_length.2 hy1)

/-- A key at the back that is equal to itself occurs nowhere else in the
recency order. -/
theorem Inv.back_not_mem_dropLast {c : MemoryCache K V} (h : Inv c) {z : K}
    (hl : c.recency.getLast? = some z) (hn : GoKey.nan z = false) :
    z ∉ c.recency.dropLast := by
  intro hc
  have hp := h.pairwise_recency
  rw [← List.dropLast_append_getLast? z hl, List.pairwise_append] at hp
  exact hp.2.2 z hc z (List.mem_singleton_self z) hn rfl

theorem getLast_filter_ne (r : List K) (k : K) (h : r.getLast? ≠ some k) :
    (r.filter (fun z => z != k)).getLast? = r.getLast? := by
  rcases hl : r.getLast? with _ | z
  · rw [List.getLast?_eq_none_iff.1 hl]
    rfl
  · have hr : r = r.dropLast ++ [z] := (List.dropLast_append_getLast? z hl).symm
    have hzk : z ≠ k := fun hc => h (by rw [hl, hc])
    rw [hr, List.filter_append, List.filter_cons_of_pos (by simpa using hzk),
      List.filter_nil, List.getLast?_concat]

/-! ## Further facts used by the properties -/

theorem Inv.Len_eq {c : MemoryCache K V} (h : Inv c) :
    c.order.Len = (c.recency.length : Int) := by
  unfold GoList.Len
  rw [h.length_recency]

theorem Inv.not_mem_data {c : MemoryCache K V} (h : Inv c) {k : K} (hk : k ∉ c.recency) :
    k ∉ c.data :=
  fun hm => hk (h.mem_recency_of_mem hm)

theorem GoMap.mem_store {W : Type} (m : GoMap K W) {k : K} (hn : GoKey.nan k = false)
    (w : W) (x : K) : x ∈ m.store k w ↔ x = k ∨ x ∈ m := by
  rw [GoMap.mem_iff, GoMap.mem_iff]
  by_cases hx : x = k
  · subst hx
    rw [m.lookup_store_self hn]
    exact ⟨fun _ => Or.inl rfl, fun _ => ⟨w, rfl⟩⟩
  · rw [m.lookup_store_of_ne _ _ hx]
    exact ⟨fun h => Or.inr h, fun h => h.resolve_left hx⟩

theorem GoMap.mem_delete {W : Type} (m : GoMap K W) (k : K) (x : K) :
    x ∈ m.delete k ↔ x ≠ k ∧ x ∈ m := by
  rw [GoMap.mem_iff, GoMap.mem_iff]
  by_cases hx : x = k
  · subst hx
    rw [m.lookup_delete_self]
    exact ⟨fun ⟨_, h⟩ => Option.noConfusion h, fun h => absurd rfl h.1⟩
  · rw [m.lookup_delete_of_ne _ hx]
    exact ⟨fun h => ⟨hx, h⟩, fun h => h.2⟩

theorem GoMap.len_store_of_mem {W : Type} (m : GoMap K W) {k : K} {w : W}
    (hk : m.lookup k = some w) (w1 : W) : (m.store k w1).len = m.len := by
  rw [m.store_reg (GoMap.nan_of_lookup hk)]
  unfold GoMap.len
  rw [keys_insert_of_mem _ _ (Finmap.mem_of_lookup_eq_some (GoMap.reg_of_lookup hk))]

theorem GoMap.len_delete_of_mem {W : Type} (m : GoMap K W) {k : K} {w : W}
    (hk : m.lookup k = some w) : (m.delete k).len + 1 = m.len := by
  rw [m.delete_reg (GoMap.nan_of_lookup hk)]
  unfold GoMap.len
  show (m.reg.erase k).keys.card + m.lost.length + 1 = _
  have := Finset.card_erase_add_one
    (Finmap.mem_keys.2 (Finmap.mem_of_lookup_eq_some (GoMap.reg_of_lookup hk)))
  rw [Finmap.keys_erase]
  omega

theorem lookup_New (capacity : Int) (k : K) : (New K V capacity).data.lookup k = none := by
  show (if GoKey.nan k then none else (∅ : Finmap (fun _ : K => node V)).lookup k) = none
  rw [Finmap.lookup_empty]
  split <;> rfl

theorem GoMap.delete_store {W : Type} (m : GoMap K W) {k : K} (hn : GoKey.nan k = false)
    (hl : m.lookup k = none) (w : W) : (m.store k w).delete k = m := by
  rw [m.store_reg hn, GoMap.delete_reg _ hn]
  have hl1 : m.reg.lookup k = none := by rw [← m.lookup_reg hn]; exact hl
  show ({ reg := (m.reg.insert k w).erase k, lost := m.lost } : GoMap K W) = m
  rw [erase_insert_of_not_mem m.reg w hl1]

/-! ## The properties -/

/-- C1 as stated fails: with keys of type `any`, three `Set` of the NaN on
`New(2)` leave `Size() = 3`. -/
theorem capacity_invariant_fails :
    ¬ ((New AnyKey Nat 2).run [Call.Set AnyKey.NaN 1, Call.Set AnyKey.NaN 2,
        Call.Set AnyKey.NaN 3]).Size.2 ≤ 2 := by
  decide

/-- C1, capacity invariant, amended: on a cache created by `New` with a
positive capacity, after each call of any finite sequence of `Set`, `Remove`,
`Get`, `Exists` and `Size` calls in which no key passed to `Set` is unequal to
itself (that is, after the first `n` calls, for every `n`), `Size()` is at
most the capacity. -/
theorem capacity_invariant [Inhabited V] (capacity : Int) (hcap : 0 < capacity)
    (cs : List (Call K V)) (hcs : ∀ x ∈ cs, x.setsNaN = false) (n : Nat) :
    ((New K V capacity).run (cs.take n)).Size.2 ≤ capacity := by
  have hi : Inv ((New K V capacity).run (cs.take n)) := (Inv.new capacity).run _
  have hcl : Clean ((New K V capacity).run (cs.take n)) :=
    clean_run (Inv.new capacity) (clean_new capacity) _
      (fun x hx => hcs x (List.mem_of_mem_take hx))
  have hc : ((New K V capacity).run (cs.take n)).capacity = capacity := run_capacity _ _
  have := hcl.size_le hi (by rw [hc]; exact hcap)
  rwa [hc] at this

theorem capacity_invariant_witness :
    (0 : Int) < 2 ∧
      ((New AnyKey Nat 2).run
        (List.take 4 [Call.Set AnyKey.nil 10, Call.Set (AnyKey.int 2) 20, Call.Get AnyKey.nil,
          Call.Set (AnyKey.int 3) 30, Call.Remove AnyKey.NaN])).Size.2 ≤ 2 :=
  ⟨by decide, capacity_invariant 2 (by decide) _ (by decide) 4⟩

/-- C2 as stated fails: with keys of type `any`, (1) `Set` of nil, 1 and 2 on
`New(2)` (pairwise distinct keys, `N = 2`, `k = 1`): the third `Set` fails and
the last key set is absent; (2) `Set` of 1 and the NaN on `New(1)` (`N = 1`,
`k = 1`): `Exists` is false for the NaN, the last key set. -/
theorem eviction_order_fails :
    ([AnyKey.nil, AnyKey.int 1, AnyKey.int 2] : List AnyKey).Nodup ∧
    ((New AnyKey Nat (2 : Nat)).setAll
      [(AnyKey.nil, 0), (AnyKey.int 1, 1), (AnyKey.int 2, 2)]).2 = false ∧
    (((New AnyKey Nat (2 : Nat)).setAll
      [(AnyKey.nil, 0), (AnyKey.int 1, 1), (AnyKey.int 2, 2)]).1.Exists (AnyKey.int 2)).2
      = false ∧
    ([AnyKey.int 1, AnyKey.NaN] : List AnyKey).Nodup ∧
    (((New AnyKey Nat (1 : Nat)).setAll
      [(AnyKey.int 1, 0), (AnyKey.NaN, 1)]).1.Exists AnyKey.NaN).2 = false := by
  decide

/-- C2, eviction order, amended: for `N ≥ 1`, `k ≥ 1` and `N + k` pairs with
pairwise distinct keys, all equal to themselves and the first `k` of them not
nil, `Set` of each pair in order on `New(N)` makes every `Set` succeed;
afterwards `Exists` is true for exactly the last `N` keys, false for each of
the first `k` keys, and `Size()` is `N`. -/
theorem eviction_order (N k : Nat) (hN : 1 ≤ N) (_hk : 1 ≤ k) (kvs : List (K × V))
    (hlen : kvs.length = N + k) (hnd : (kvs.map Prod.fst).Nodup)
    (hnan : ∀ x ∈ kvs.map Prod.fst, GoKey.nan x = false)
    (hnil : ∀ x ∈ (kvs.map Prod.fst).take k, GoKey.isNil x = false) :
    ((New K V N).setAll kvs).2 = true ∧
      (∀ x, (((New K V N).setAll kvs).1.Exists x).2 = true
        ↔ x ∈ (kvs.map Prod.fst).drop k) ∧
      (∀ x ∈ (kvs.map Prod.fst).take k, (((New K V N).setAll kvs).1.Exists x).2 = false) ∧
      ((New K V N).setAll kvs).1.Size.2 = N := by
  have hcap : 0 < (New K V (N : Int)).capacity := by
    show (0 : Int) < (N : Int)
    omega
  have hlen1 : (kvs.map Prod.fst).length = N + k := by rw [List.length_map, hlen]
  have hnil1 : ∀ z ∈ ((kvs.map Prod.fst).reverse ++ (New K V (N : Int)).recency).drop
      (New K V (N : Int)).capacity.toNat, GoKey.isNil z = false := by
    intro z hz
    have hz1 : z ∈ ((kvs.map Prod.fst).reverse ++ []).drop (N : Int).toNat := hz
    rw [List.append_nil, Int.toNat_ofNat, drop_reverse_eq_take _ N k hlen1,
      List.mem_reverse] at hz1
    exact hnil z hz1
  obtain ⟨h1, h2, hcl, h3⟩ := setAll_spec (Inv.new (N : Int)) (clean_new (N : Int)) hcap kvs
    hnd (fun x _ hc => absurd hc (List.not_mem_nil _)) hnan hnil1
  have hrec : ((New K V N).setAll kvs).1.recency = ((kvs.map Prod.fst).drop k).reverse := by
    rw [h3]
    show ((kvs.map Prod.fst).reverse ++ []).take (N : Int).toNat = _
    rw [List.append_nil, Int.toNat_ofNat]
    exact take_reverse_eq_drop _ N k hlen1
  have hex : ∀ x, (((New K V N).setAll kvs).1.Exists x).2 = true
      ↔ x ∈ (kvs.map Prod.fst).drop k := by
    intro x
    rw [Exists_iff, ← hcl.mem_recency_iff h2, hrec, List.mem_reverse]
  refine ⟨h1, hex, ?_, ?_⟩
  · intro x hx
    have hnot : x ∉ (kvs.map Prod.fst).drop k := by
      intro hc
      have hd := hnd
      rw [← List.take_append_drop k (kvs.map Prod.fst), List.nodup_append] at hd
      exact hd.2.2 hx hc
    have := (hex x).not.2 hnot
    simpa using this
  · rw [hcl.size_eq_len h2, h2.Len_eq, hrec, List.length_reverse, List.length_drop, hlen1]
    simp

theorem eviction_order_witness :
    ((New AnyKey Nat (2 : Nat)).setAll [(AnyKey.int 0, 0), (AnyKey.int 1, 1),
        (AnyKey.nil, 2), (AnyKey.int 3, 3)]).2 = true ∧
      (∀ x, (((New AnyKey Nat (2 : Nat)).setAll [(AnyKey.int 0, 0), (AnyKey.int 1, 1),
          (AnyKey.nil, 2), (AnyKey.int 3, 3)]).1.Exists x).2 = true
        ↔ x ∈ ([(AnyKey.int 0, 0), (AnyKey.int 1, 1), (AnyKey.nil, 2),
            (AnyKey.int 3, 3)].map Prod.fst).drop 2) ∧
      (∀ x ∈ ([(AnyKey.int 0, 0), (AnyKey.int 1, 1), (AnyKey.nil, 2),
            (AnyKey.int 3, 3)].map Prod.fst).take 2,
        (((New AnyKey Nat (2 : Nat)).setAll [(AnyKey.int 0, 0), (AnyKey.int 1, 1),
          (AnyKey.nil, 2), (AnyKey.int 3, 3)]).1.Exists x).2 = false) ∧
      ((New AnyKey Nat (2 : Nat)).setAll [(AnyKey.int 0, 0), (AnyKey.int 1, 1),
        (AnyKey.nil, 2), (AnyKey.int 3, 3)]).1.Size.2 = (2 : Nat) :=
  eviction_order 2 2 (by decide) (by decide)
    [(AnyKey.int 0, 0), (AnyKey.int 1, 1), (AnyKey.nil, 2), (AnyKey.int 3, 3)] rfl
    (by decide) (by decide) (by decide)

/-- C3 as stated fails in its scenario: with keys of type `any`, (1) for
`a = 1`, `b = nil`, `d = 2` (pairwise distinct), the final `Set(d)` fails, so
`d` is absent and `b` is still present; (2) for `a = NaN`, `b = 1`, `d = 2`
the key `a` is absent at the end, and for `a = 1`, `b = 2`, `d = NaN` the key
`d` is. -/
theorem promotion_on_get_fails :
    AnyKey.int 1 ≠ AnyKey.nil ∧ AnyKey.int 1 ≠ AnyKey.int 2 ∧ AnyKey.nil ≠ AnyKey.int 2 ∧
    ((((((New AnyKey Nat 2).Set (AnyKey.int 1) 0).1.Set AnyKey.nil 0).1.Get
      (AnyKey.int 1)).1.Set (AnyKey.int 2) 0).1.Exists (AnyKey.int 2)).2 = false ∧
    ((((((New AnyKey Nat 2).Set (AnyKey.int 1) 0).1.Set AnyKey.nil 0).1.Get
      (AnyKey.int 1)).1.Set (AnyKey.int 2) 0).1.Exists AnyKey.nil).2 = true ∧
    AnyKey.NaN ≠ AnyKey.int 1 ∧ AnyKey.NaN ≠ AnyKey.int 2 ∧
    ((((((New AnyKey Nat 2).Set AnyKey.NaN 0).1.Set (AnyKey.int 1) 0).1.Get
      AnyKey.NaN).1.Set (AnyKey.int 2) 0).1.Exists AnyKey.NaN).2 = false ∧
    ((((((New AnyKey Nat 2).Set (AnyKey.int 1) 0).1.Set (AnyKey.int 2) 0).1.Get
      (AnyKey.int 1)).1.Set AnyKey.NaN 0).1.Exists AnyKey.NaN).2 = false := by
  decide

/-- C3, promotion on `Get`, amended: in every state reachable from `New`, a
`Get(k)` that finds `k` leaves `k` at the front of the recency order, keeps
the relative order of the other keys and leaves the index (keys and stored
values) as it was.  For pairwise distinct `a`, `b`, `d` with `a` and `d` equal
to themselves and `b` not nil, on a fresh cache of capacity 2, `Set(a)`,
`Set(b)`, `Get(a)`, `Set(d)` ends with `a` and `d` present and `b` absent. -/
theorem promotion_on_get [Inhabited V] (capacity : Int) (c : MemoryCache K V) (k : K)
    (a b d : K) (va vb vd : V) :
    (Reachable capacity c → (c.Get k).2.2 = true →
      (c.Get k).1.recency.head? = some k ∧
      (c.Get k).1.recency.filter (fun x => x != k) = c.recency.filter (fun x => x != k) ∧
      (c.Get k).1.data = c.data) ∧
    (a ≠ b → a ≠ d → b ≠ d →
      GoKey.nan a = false → GoKey.nan d = false → GoKey.isNil b = false →
      ((((((New K V 2).Set a va).1.Set b vb).1.Get a).1.Set d vd).1.Exists a).2 = true ∧
      ((((((New K V 2).Set a va).1.Set b vb).1.Get a).1.Set d vd).1.Exists d).2 = true ∧
      ((((((New K V 2).Set a va).1.Set b vb).1.Get a).1.Set d vd).1.Exists b).2 = false) := by
  constructor
  · intro hr hit
    have h := hr.inv
    rcases hk : c.data.lookup k with _ | n
    · rw [Get_absent c hk] at hit
      cases hit
    · have hm : k ∈ c.data := (GoMap.mem_iff _ _).2 ⟨n, hk⟩
      have hrec := recency_Get h k
      rw [if_pos hm] at hrec
      refine ⟨?_, ?_, data_Get c k⟩
      · rw [hrec]
        rfl
      · rw [hrec]
        exact filter_bne_cons_filter k c.recency
  · intro hab had hbd hna hnd hzb
    have i0 : Inv (New K V 2) := Inv.new 2
    have k0 : (New K V 2).capacity = 2 := rfl
    have i1 := i0.Set a va
    have k1 : ((New K V 2).Set a va).1.capacity = 2 := by rw [Set_capacity, k0]
    have i2 := i1.Set b vb
    have k2 : (((New K V 2).Set a va).1.Set b vb).1.capacity = 2 := by rw [Set_capacity, k1]
    have i3 := i2.Get a
    have k3 : ((((New K V 2).Set a va).1.Set b vb).1.Get a).1.capacity = 2 := by
      rw [Get_capacity, k2]
    have i4 := i3.Set d vd
    have r0 : (New K V 2).recency = [] := rfl
    have r1 : ((New K V 2).Set a va).1.recency = [a] := by
      rw [recency_Set i0 (by rw [k0]; decide) a va
          (evictsNil_eq_false_of_room _ _ (by rw [i0.Len_eq, r0, k0]; simp)),
        if_neg (i0.not_mem_data (by rw [r0]; simp)), r0, k0]
      rfl
    have r2 : (((New K V 2).Set a va).1.Set b vb).1.recency = [b, a] := by
      rw [recency_Set i1 (by rw [k1]; decide) b vb
          (evictsNil_eq_false_of_room _ _ (by rw [i1.Len_eq, r1, k1]; simp)),
        if_neg (i1.not_mem_data (by rw [r1]; simp [Ne.symm hab])), r1, k1]
      rfl
    have r3 : ((((New K V 2).Set a va).1.Set b vb).1.Get a).1.recency = [a, b] := by
      rw [recency_Get i2, if_pos (i2.mem_of_mem_recency hna (by rw [r2]; simp)), r2]
      simp [List.filter_cons, hab, Ne.symm hab]
    have b3 : ((((New K V 2).Set a va).1.Set b vb).1.Get a).1.backNil = false := by
      unfold MemoryCache.backNil
      rw [r3]
      exact hzb
    have r4 : (((((New K V 2).Set a va).1.Set b vb).1.Get a).1.Set d vd).1.recency
        = [d, a] := by
      rw [recency_Set i3 (by rw [k3]; decide) d vd (evictsNil_eq_false_of_backNil _ _ b3),
        if_neg (i3.not_mem_data (by rw [r3]; simp [Ne.symm had, Ne.symm hbd])), r3, k3]
      rfl
    refine ⟨?_, ?_, ?_⟩
    · exact (Exists_iff_recency i4 a).2 ⟨hna, by rw [r4]; simp⟩
    · exact (Exists_iff_recency i4 d).2 ⟨hnd, by rw [r4]; simp⟩
    · exact Exists_eq_false i4 (Or.inr (by rw [r4]; simp [hbd, Ne.symm hab]))

theorem promotion_on_get_witness :
    (((New AnyKey Nat 2).run [Call.Set AnyKey.nil 10, Call.Set (AnyKey.int 2) 20]).Get
        AnyKey.nil).1.recency.head? = some AnyKey.nil ∧
      ((((((New AnyKey Nat 2).Set AnyKey.nil 10).1.Set (AnyKey.int 2) 20).1.Get
        AnyKey.nil).1.Set (AnyKey.int 3) 30).1.Exists (AnyKey.int 2)).2 = false :=
  ⟨((promotion_on_get 2
      ((New AnyKey Nat 2).run [Call.Set AnyKey.nil 10, Call.Set (AnyKey.int 2) 20]) AnyKey.nil
      AnyKey.nil (AnyKey.int 2) (AnyKey.int 3) 10 20 30).1 ⟨_, rfl⟩ (by decide)).1,
   ((promotion_on_get 2
      ((New AnyKey Nat 2).run [Call.Set AnyKey.nil 10, Call.Set (AnyKey.int 2) 20]) AnyKey.nil
      AnyKey.nil (AnyKey.int 2) (AnyKey.int 3) 10 20 30).2 (by decide) (by decide) (by decide)
      (by decide) (by decide) (by decide)).2.2⟩

/-- C4 as stated fails: with keys of type `any`, (1) in the state reached from
`New(1)` by `Set(nil, 1)`, `Set(1, 5)` directly followed by `Set(1, 7)`: the
second `Set` fails and `Get(1)` misses; (2) on `New(2)`, `Set(NaN, 5)`
directly followed by `Set(NaN, 7)`: `Size()` goes from 1 to 2 and `Get(NaN)`
misses. -/
theorem update_in_place_fails :
    ((((New AnyKey Nat 1).run [Call.Set AnyKey.nil 1]).Set (AnyKey.int 1) 5).1.Set
        (AnyKey.int 1) 7).2 = some error.castK ∧
      (((((New AnyKey Nat 1).run [Call.Set AnyKey.nil 1]).Set (AnyKey.int 1) 5).1.Set
        (AnyKey.int 1) 7).1.Get (AnyKey.int 1)).2 = (0, false) ∧
      ((New AnyKey Nat 2).Set AnyKey.NaN 5).1.Size.2 = 1 ∧
      (((New AnyKey Nat 2).Set AnyKey.NaN 5).1.Set AnyKey.NaN 7).1.Size.2 = 2 ∧
      ((((New AnyKey Nat 2).Set AnyKey.NaN 5).1.Set AnyKey.NaN 7).1.Get AnyKey.NaN).2
        = (0, false) := by
  decide

/-- C4, update in place, amended: in every state reachable from `New` with a
positive capacity, for a key `k` equal to itself, `Set(k, v1)` succeeds unless
`k` is absent, the cache is full and the back key is nil; when it has
succeeded and is directly followed by `Set(k, v2)`, the second `Set` succeeds
and evicts nothing (the keys found in the index and `Size()` are those after
the first `Set`), `k` is at the front of the recency order, and `Get(k)`
returns `(v2, true)`. -/
theorem update_in_place [Inhabited V] (capacity : Int) (hcap : 0 < capacity)
    (c : MemoryCache K V) (hr : Reachable capacity c) (k : K) (v1 v2 : V)
    (hnan : GoKey.nan k = false) :
    (c.evictsNil k = false → (c.Set k v1).2 = none) ∧
    ((c.Set k v1).2 = none →
      ((c.Set k v1).1.Set k v2).2 = none ∧
      (∀ x, x ∈ ((c.Set k v1).1.Set k v2).1.data ↔ x ∈ (c.Set k v1).1.data) ∧
      ((c.Set k v1).1.Set k v2).1.Size.2 = (c.Set k v1).1.Size.2 ∧
      ((c.Set k v1).1.Set k v2).1.recency.head? = some k ∧
      (((c.Set k v1).1.Set k v2).1.Get k).2 = (v2, true)) := by
  have h := hr.inv
  have hc : 0 < c.capacity := by rw [hr.capacity_eq]; exact hcap
  refine ⟨Set_ok h hc k v1, ?_⟩
  intro hok1
  have h1 := h.Set k v1
  obtain ⟨a, ha⟩ := lookup_Set_self h hnan v1 hok1
  obtain ⟨hok, hrec, hdata⟩ := Set_present_spec h1 ha v2
  refine ⟨hok, ?_, ?_, ?_, ?_⟩
  · intro x
    rw [hdata, GoMap.mem_store _ hnan]
    constructor
    · rintro (hx | hx)
      · rw [hx]
        exact (GoMap.mem_iff _ _).2 ⟨_, ha⟩
      · exact hx
    · exact Or.inr
  · show ((((c.Set k v1).1.Set k v2).1.data.len : Nat) : Int) = _
    rw [hdata, GoMap.len_store_of_mem _ ha]
    rfl
  · rw [hrec]
    rfl
  · have hl : ((c.Set k v1).1.Set k v2).1.data.lookup k = some ⟨v2, a⟩ := by
      rw [hdata]
      exact GoMap.lookup_store_self _ hnan _
    rw [Get_present _ hl]

theorem update_in_place_witness :
    (0 : Int) < 1 ∧ GoKey.nan (AnyKey.int 1) = false ∧
      (((((New AnyKey Nat 1).run [Call.Set (AnyKey.int 0) 0]).Set (AnyKey.int 1) 100).1.Set
        (AnyKey.int 1) 7).1.Get (AnyKey.int 1)).2 = (7, true) :=
  ⟨by decide, by decide,
   ((update_in_place 1 (by decide) ((New AnyKey Nat 1).run [Call.Set (AnyKey.int 0) 0])
      ⟨_, rfl⟩ (AnyKey.int 1) 100 7 (by decide)).2 (by decide)).2.2.2.2⟩

/-- C5 as stated fails in its scenario: with keys of type `any`, (1) for
`a = nil`, `b = 1`, `d = 2` (pairwise distinct), `n = 0`: the final `Set(d)`
fails, so `a` is still present and `d` is absent; (2) for `a = 1`, `b = NaN`,
`d = 2` the key `b` is absent at the end, and for `a = 1`, `b = 2`, `d = NaN`
the key `d` is. -/
theorem exists_non_promoting_fails :
    AnyKey.nil ≠ AnyKey.int 1 ∧ AnyKey.nil ≠ AnyKey.int 2 ∧ AnyKey.int 1 ≠ AnyKey.int 2 ∧
    ((((((New AnyKey Nat 2).Set AnyKey.nil 0).1.Set (AnyKey.int 1) 0).1.existsN
      AnyKey.nil 0).Set (AnyKey.int 2) 0).1.Exists AnyKey.nil).2 = true ∧
    ((((((New AnyKey Nat 2).Set AnyKey.nil 0).1.Set (AnyKey.int 1) 0).1.existsN
      AnyKey.nil 0).Set (AnyKey.int 2) 0).1.Exists (AnyKey.int 2)).2 = false ∧
    AnyKey.int 1 ≠ AnyKey.NaN ∧ AnyKey.NaN ≠ AnyKey.int 2 ∧
    ((((((New AnyKey Nat 2).Set (AnyKey.int 1) 0).1.Set AnyKey.NaN 0).1.existsN
      (AnyKey.int 1) 0).Set (AnyKey.int 2) 0).1.Exists AnyKey.NaN).2 = false ∧
    ((((((New AnyKey Nat 2).Set (AnyKey.int 1) 0).1.Set (AnyKey.int 2) 0).1.existsN
      (AnyKey.int 1) 0).Set AnyKey.NaN 0).1.Exists AnyKey.NaN).2 = false := by
  decide

/-- C5, `Exists` is non-promoting, amended: in every state `Exists(k)` returns
true exactly when `k` is in the index, and leaves the whole cache state
unchanged.  For pairwise distinct `a`, `b`, `d` with `a` not nil and `b`, `d`
equal to themselves, on a fresh cache of capacity 2, `Set(a)`, `Set(b)`, any
number `n` of `Exists(a)` calls, `Set(d)` ends with `a` absent and `b`, `d`
present. -/
theorem exists_non_promoting (c : MemoryCache K V) (k : K) (n : Nat)
    (a b d : K) (va vb vd : V) :
    ((c.Exists k).2 = true ↔ k ∈ c.data) ∧ (c.Exists k).1 = c ∧
    (a ≠ b → a ≠ d → b ≠ d →
      GoKey.isNil a = false → GoKey.nan b = false → GoKey.nan d = false →
      ((((((New K V 2).Set a va).1.Set b vb).1.existsN a n).Set d vd).1.Exists a).2 = false ∧
      ((((((New K V 2).Set a va).1.Set b vb).1.existsN a n).Set d vd).1.Exists b).2 = true ∧
      ((((((New K V 2).Set a va).1.Set b vb).1.existsN a n).Set d vd).1.Exists d).2 = true) := by
  refine ⟨Exists_iff c k, rfl, ?_⟩
  intro hab had hbd hza hnb hnd
  rw [existsN_eq]
  have i0 : Inv (New K V 2) := Inv.new 2
  have k0 : (New K V 2).capacity = 2 := rfl
  have i1 := i0.Set a va
  have k1 : ((New K V 2).Set a va).1.capacity = 2 := by rw [Set_capacity, k0]
  have i2 := i1.Set b vb
  have k2 : (((New K V 2).Set a va).1.Set b vb).1.capacity = 2 := by rw [Set_capacity, k1]
  have i3 := i2.Set d vd
  have r0 : (New K V 2).recency = [] := rfl
  have r1 : ((New K V 2).Set a va).1.recency = [a] := by
    rw [recency_Set i0 (by rw [k0]; decide) a va
        (evictsNil_eq_false_of_room _ _ (by rw [i0.Len_eq, r0, k0]; simp)),
      if_neg (i0.not_mem_data (by rw [r0]; simp)), r0, k0]
    rfl
  have r2 : (((New K V 2).Set a va).1.Set b vb).1.recency = [b, a] := by
    rw [recency_Set i1 (by rw [k1]; decide) b vb
        (evictsNil_eq_false_of_room _ _ (by rw [i1.Len_eq, r1, k1]; simp)),
      if_neg (i1.not_mem_data (by rw [r1]; simp [Ne.symm hab])), r1, k1]
    rfl
  have b2 : (((New K V 2).Set a va).1.Set b vb).1.backNil = false := by
    unfold MemoryCache.backNil
    rw [r2]
    exact hza
  have r3 : ((((New K V 2).Set a va).1.Set b vb).1.Set d vd).1.recency = [d, b] := by
    rw [recency_Set i2 (by rw [k2]; decide) d vd (evictsNil_eq_false_of_backNil _ _ b2),
      if_neg (i2.not_mem_data (by rw [r2]; simp [Ne.symm had, Ne.symm hbd])), r2, k2]
    rfl
  refine ⟨?_, ?_, ?_⟩
  · exact Exists_eq_false i3 (Or.inr (by rw [r3]; simp [hab, had]))
  · exact (Exists_iff_recency i3 b).2 ⟨hnb, by rw [r3]; simp⟩
  · exact (Exists_iff_recency i3 d).2 ⟨hnd, by rw [r3]; simp⟩

theorem exists_non_promoting_witness :
    ((((((New AnyKey Nat 2).Set AnyKey.NaN 10).1.Set AnyKey.nil 20).1.existsN AnyKey.NaN
        5).Set (AnyKey.int 3) 30).1.Exists AnyKey.NaN).2 = false ∧
    ((((((New AnyKey Nat 2).Set AnyKey.NaN 10).1.Set AnyKey.nil 20).1.existsN AnyKey.NaN
        5).Set (AnyKey.int 3) 30).1.Exists AnyKey.nil).2 = true ∧
    ((((((New AnyKey Nat 2).Set AnyKey.NaN 10).1.Set AnyKey.nil 20).1.existsN AnyKey.NaN
        5).Set (AnyKey.int 3) 30).1.Exists (AnyKey.int 3)).2 = true :=
  (exists_non_promoting (New AnyKey Nat 2) AnyKey.nil 5 AnyKey.NaN AnyKey.nil (AnyKey.int 3)
    10 20 30).2.2 (by decide) (by decide) (by decide) (by decide) (by decide) (by decide)

/-- C6, `Remove` of an absent key: in every state `Remove(k)` returns an error
if and only if `k` is not in the cache, and then the cache state is unchanged
(same index, recency list, capacity and `Size()`).  In particular it fails on
the empty cache, and for a key that was set and has since been evicted
(capacity 2, keys 0 to 3 set, `Remove(1)`). -/
theorem remove_absent (c : MemoryCache K V) (k : K) (capacity : Int) :
    ((c.Remove k).2 ≠ none ↔ k ∉ c.data) ∧
    (k ∉ c.data → (c.Remove k).2 = some (error.noEntry k) ∧ (c.Remove k).1 = c ∧
      (c.Remove k).1.Size.2 = c.Size.2) ∧
    ((New K V capacity).Remove k).2 = some (error.noEntry k) ∧
    ((New K V capacity).Remove k).1 = New K V capacity ∧
    ((((New Nat Nat 2).setAll [(0, 0), (1, 1), (2, 2), (3, 3)]).1.Remove 1).2
      = some (error.noEntry 1)) := by
  have habs : k ∉ c.data → (c.Remove k).2 = some (error.noEntry k) ∧ (c.Remove k).1 = c ∧
      (c.Remove k).1.Size.2 = c.Size.2 := by
    intro hk
    rw [Remove_absent c ((GoMap.not_mem_iff _ _).1 hk)]
    exact ⟨rfl, rfl, rfl⟩
  refine ⟨?_, habs, ?_, ?_, by decide⟩
  · constructor
    · intro he hk
      obtain ⟨n, hn⟩ := (GoMap.mem_iff _ _).1 hk
      rw [Remove_present c hn] at he
      exact he rfl
    · intro hk
      rw [(habs hk).1]
      exact Option.some_ne_none _
  · rw [Remove_absent (New K V capacity) (lookup_New capacity k)]
  · rw [Remove_absent (New K V capacity) (lookup_New capacity k)]

theorem remove_absent_witness :
    (((New Nat Nat 2).Set 1 10).1.Remove 5).2 = some (error.noEntry 5) ∧
      (((New Nat Nat 2).Set 1 10).1.Remove 5).1 = ((New Nat Nat 2).Set 1 10).1 ∧
      (((New Nat Nat 2).Set 1 10).1.Remove 5).1.Size.2 = ((New Nat Nat 2).Set 1 10).1.Size.2 :=
  (remove_absent ((New Nat Nat 2).Set 1 10).1 5 2).2.1 (by decide)

/-- C7, `Remove` of a present key: in every state reachable from `New` in
which `k` is present, `Remove(k)` succeeds; afterwards `Exists(k)` is false,
`Get(k)` misses, `Size()` is one less, `k` is in neither the index nor the
recency list, every other key keeps its node, and the recency order is the old
one without `k`. -/
theorem remove_present [Inhabited V] (capacity : Int) (c : MemoryCache K V)
    (hr : Reachable capacity c) (k : K) (hk : k ∈ c.data) :
    (c.Remove k).2 = none ∧
      ((c.Remove k).1.Exists k).2 = false ∧
      ((c.Remove k).1.Get k).2 = (default, false) ∧
      (c.Remove k).1.Size.2 = c.Size.2 - 1 ∧
      k ∉ (c.Remove k).1.data ∧
      (∀ e ∈ (c.Remove k).1.order.elems, e.Value ≠ some k) ∧
      (∀ x, x ≠ k → (c.Remove k).1.data.lookup x = c.data.lookup x) ∧
      (c.Remove k).1.recency = c.recency.filter (fun x => x != k) := by
  have h := hr.inv
  obtain ⟨n, hn⟩ := (GoMap.mem_iff _ _).1 hk
  have hrec := recency_delete h hn (c.data.delete k)
  rw [Remove_present c hn]
  have hl : (c.data.delete k).lookup k = none := c.data.lookup_delete_self k
  refine ⟨rfl, ?_, ?_, ?_, (GoMap.not_mem_iff _ _).2 hl, ?_, ?_, hrec⟩
  · show ((c.data.delete k).lookup k).isSome = false
    rw [hl]
    rfl
  · rw [Get_absent _ hl]
  · show (((c.data.delete k).len : Nat) : Int) = (c.data.len : Int) - 1
    have := c.data.len_delete_of_mem hn
    omega
  · intro e he hv
    obtain ⟨he1, he2⟩ := List.mem_filter.1 he
    have := (h.addr_eq_iff hn he1).2 hv
    simp [this] at he2
  · intro x hx
    exact c.data.lookup_delete_of_ne k hx

theorem remove_present_witness :
    (3 : Nat) ∈ ((New Nat Nat 2).run [Call.Set 2 2, Call.Set 3 3]).data ∧
      ((((New Nat Nat 2).run [Call.Set 2 2, Call.Set 3 3]).Remove 3).1.Exists 3).2 = false :=
  ⟨by decide,
   (remove_present 2 ((New Nat Nat 2).run [Call.Set 2 2, Call.Set 3 3]) ⟨_, rfl⟩ 3
      (by decide)).2.1⟩

/-- C8 as stated fails: with keys of type `any`, in the state reached from
`New(1)` by `Set(nil, 1)`, `Set(1, 100)` fails, `Get(1)` misses and `1` is
absent; and on `New(1)`, `Set(NaN, 100)` succeeds but `Get(NaN)` misses and
`Exists(NaN)` is false. -/
theorem round_trip_fails :
    (((New AnyKey Nat 1).run [Call.Set AnyKey.nil 1]).Set (AnyKey.int 1) 100).2
        = some error.castK ∧
      ((((New AnyKey Nat 1).run [Call.Set AnyKey.nil 1]).Set (AnyKey.int 1) 100).1.Get
        (AnyKey.int 1)).2 = (0, false) ∧
      ((((New AnyKey Nat 1).run [Call.Set AnyKey.nil 1]).Set (AnyKey.int 1) 100).1.Exists
        (AnyKey.int 1)).2 = false ∧
      ((New AnyKey Nat 1).Set AnyKey.NaN 100).2 = none ∧
      (((New AnyKey Nat 1).Set AnyKey.NaN 100).1.Get AnyKey.NaN).2 = (0, false) ∧
      (((New AnyKey Nat 1).Set AnyKey.NaN 100).1.Exists AnyKey.NaN).2 = false := by
  decide

/-- C8, round trip, amended: in every state reachable from `New` with a
positive capacity (capacity 1 included), for a key `k` equal to itself and
unless `k` is absent, the cache is full and the back key is nil, `Set(k, v)`
succeeds, a `Get(k)` directly afterwards returns `(v, true)`, and `k` is
present after its own `Set`. -/
theorem round_trip [Inhabited V] (capacity : Int) (hcap : 0 < capacity)
    (c : MemoryCache K V) (hr : Reachable capacity c) (k : K) (v : V)
    (hnan : GoKey.nan k = false) (hback : c.evictsNil k = false) :
    (c.Set k v).2 = none ∧ ((c.Set k v).1.Get k).2 = (v, true) ∧
      ((c.Set k v).1.Exists k).2 = true := by
  have h := hr.inv
  have hc : 0 < c.capacity := by rw [hr.capacity_eq]; exact hcap
  have hok := Set_ok h hc k v hback
  obtain ⟨a, ha⟩ := lookup_Set_self h hnan v hok
  refine ⟨hok, ?_, ?_⟩
  · rw [Get_present _ ha]
  · exact (Exists_iff _ k).2 ((GoMap.mem_iff _ _).2 ⟨_, ha⟩)

theorem round_trip_witness :
    (0 : Int) < 1 ∧
      (((New AnyKey Nat 1).run [Call.Set (AnyKey.int 0) 0]).Set AnyKey.nil 100).2 = none ∧
      ((((New AnyKey Nat 1).run [Call.Set (AnyKey.int 0) 0]).Set AnyKey.nil 100).1.Get
        AnyKey.nil).2 = (100, true) ∧
      ((((New AnyKey Nat 1).run [Call.Set (AnyKey.int 0) 0]).Set AnyKey.nil 100).1.Exists
        AnyKey.nil).2 = true :=
  ⟨by decide, round_trip 1 (by decide) ((New AnyKey Nat 1).run [Call.Set (AnyKey.int 0) 0])
    ⟨_, rfl⟩ AnyKey.nil 100 (by decide) (by decide)⟩

/-- C9, `Get` miss: in every state, for a key `k` that is not in the cache,
`Get(k)` returns the zero value of `V` and `false`, and leaves the cache state
unchanged. -/
theorem get_miss [Inhabited V] (c : MemoryCache K V) (k : K) (hk : k ∉ c.data) :
    (c.Get k).2 = (default, false) ∧ (c.Get k).1 = c := by
  rw [Get_absent c ((GoMap.not_mem_iff _ _).1 hk)]
  exact ⟨rfl, rfl⟩

theorem get_miss_witness :
    (7 : Nat) ∉ ((New Nat Nat 1).Set 3 30).1.data ∧
      (((New Nat Nat 1).Set 3 30).1.Get 7).2 = (default, false) ∧
      (((New Nat Nat 1).Set 3 30).1.Get 7).1 = ((New Nat Nat 1).Set 3 30).1 :=
  ⟨by decide, get_miss ((New Nat Nat 1).Set 3 30).1 7 (by decide)⟩

/-- C10 as stated fails: with keys of type `any`, in the state reached from
`New(1)` by `Set(nil, 1)` (positive capacity), `Set(1, 2)` returns the error
of the failed type assertion and `evict` fails. -/
theorem set_never_fails_fails :
    (((New AnyKey Nat 1).run [Call.Set AnyKey.nil 1]).Set (AnyKey.int 1) 2).2
        = some error.castK ∧
      ((New AnyKey Nat 1).run [Call.Set AnyKey.nil 1]).order.Len
        ≥ ((New AnyKey Nat 1).run [Call.Set AnyKey.nil 1]).capacity ∧
      ((New AnyKey Nat 1).run [Call.Set AnyKey.nil 1]).evict.2 = some error.castK := by
  decide

/-- C10, when `Set` fails on a cache of positive capacity, amended: in every
state reached from `New` with a positive capacity by a sequence of calls,
`Set` never returns the "no elements to evict" error; it returns `nil` unless
the key is absent, the list is at or above the capacity and the back key is
nil, and then it returns the error of the failed type assertion.  Whenever the
recency list is at or above the capacity (the only case in which `Set` calls
`evict`) the list has a back element, that element holds a key, and `evict`
returns `nil` exactly when that key is not nil.  If no key passed to `Set` in
the sequence was nil, every `Set` returns `nil` and `evict` returns `nil`
whenever the list is at or above the capacity. -/
theorem set_never_fails [Inhabited V] (capacity : Int) (hcap : 0 < capacity)
    (cs : List (Call K V)) (c : MemoryCache K V) (hc : c = (New K V capacity).run cs)
    (k : K) (v : V) :
    (c.Set k v).2 ≠ some error.noElementsToEvict ∧
      ((c.Set k v).2 = none ↔ c.evictsNil k = false) ∧
      (c.evictsNil k = true → (c.Set k v).2 = some error.castK) ∧
      (c.order.Len ≥ c.capacity →
        (∃ el key, c.order.Back = some el ∧ el.Value = some key ∧
          (c.evict.2 = none ↔ GoKey.isNil key = false)) ∧
        c.evict.2 ≠ some error.noElementsToEvict) ∧
      ((∀ x ∈ cs, x.setsNil = false) →
        (c.Set k v).2 = none ∧ (c.order.Len ≥ c.capacity → c.evict.2 = none)) := by
  have hr : Reachable capacity c := ⟨cs, hc⟩
  have h := hr.inv
  have hcp : 0 < c.capacity := by rw [hr.capacity_eq]; exact hcap
  have hfail : c.evictsNil k = true → (c.Set k v).2 = some error.castK := by
    intro he
    rw [Set_fail h v he]
  have hev : c.order.Len ≥ c.capacity →
      (∃ el key, c.order.Back = some el ∧ el.Value = some key ∧
          (c.evict.2 = none ↔ GoKey.isNil key = false)) ∧
        c.evict.2 ≠ some error.noElementsToEvict := by
    intro hge
    have hne : c.order.elems ≠ [] := by
      intro he
      unfold GoList.Len at hge
      rw [he] at hge
      simp only [List.length_nil, Nat.cast_zero] at hge
      omega
    obtain ⟨a, z, hl, _⟩ := h.back hne
    rcases hz : GoKey.isNil z with _ | _
    · rw [evict_ok c hl hz]
      exact ⟨⟨_, z, hl, rfl, by simp [hz]⟩, by simp⟩
    · rw [evict_nil c hl hz]
      exact ⟨⟨_, z, hl, rfl, by simp [hz]⟩, by simp⟩
  refine ⟨?_, Set_ok_iff h hcp k v, hfail, hev, ?_⟩
  · rcases he : c.evictsNil k with _ | _
    · rw [Set_ok h hcp k v he]
      simp
    · rw [hfail he]
      simp
  · intro hcs
    have hnn : NoNil c := by
      rw [hc]
      exact noNil_run (Inv.new capacity) (noNil_new capacity) cs hcs
    refine ⟨Set_ok h hcp k v (hnn.evictsNil_false k), ?_⟩
    intro hge
    obtain ⟨⟨el, key, hb, hv, hiff⟩, _⟩ := hev hge
    refine hiff.2 ?_
    have hl : c.order.elems.getLast? = some ⟨el.addr, some key⟩ := by
      rw [← hv]
      exact hb
    have := h.backNil_eq hl
    rw [hnn.backNil_false] at this
    exact this.symm

theorem set_never_fails_witness :
    (0 : Int) < 1 ∧
      (((New AnyKey Nat 1).run [Call.Set (AnyKey.int 0) 0, Call.Get (AnyKey.int 0)]).Set
        AnyKey.nil 1).2 = none ∧
      ((New AnyKey Nat 1).run [Call.Set (AnyKey.int 0) 0, Call.Get (AnyKey.int 0)]).evict.2
        = none :=
  ⟨by decide,
   ((set_never_fails 1 (by decide) [Call.Set (AnyKey.int 0) 0, Call.Get (AnyKey.int 0)]
      _ rfl AnyKey.nil 1).2.2.2.2 (by decide)).1,
   ((set_never_fails 1 (by decide) [Call.Set (AnyKey.int 0) 0, Call.Get (AnyKey.int 0)]
      _ rfl AnyKey.nil 1).2.2.2.2 (by decide)).2 (by decide)⟩

/-- C11 as stated fails: with keys of type `any`, (1) in the state reached
from `New(1)` by `Set(nil, 1)`, where `Size() = capacity`, `Set(1, 2)` of the
absent key 1 removes nothing and does not put 1 at the front; (2) in the state
reached from `New(2)` by `Set(NaN, 0)`, `Set(1, 1)`, `Set(2, 2)`, `Remove(1)`,
where `Size() = capacity`, `Set(3, 3)` of the absent key 3 removes no entry. -/
theorem one_eviction_per_set_fails :
    AnyKey.int 1 ∉ ((New AnyKey Nat 1).run [Call.Set AnyKey.nil 1]).data ∧
    ((New AnyKey Nat 1).run [Call.Set AnyKey.nil 1]).Size.2 = 1 ∧
    (((New AnyKey Nat 1).run [Call.Set AnyKey.nil 1]).Set (AnyKey.int 1) 2).1.recency
      = [AnyKey.nil] ∧
    AnyKey.int 3 ∉ ((New AnyKey Nat 2).run [Call.Set AnyKey.NaN 0, Call.Set (AnyKey.int 1) 1,
        Call.Set (AnyKey.int 2) 2, Call.Remove (AnyKey.int 1)]).data ∧
    ((New AnyKey Nat 2).run [Call.Set AnyKey.NaN 0, Call.Set (AnyKey.int 1) 1,
        Call.Set (AnyKey.int 2) 2, Call.Remove (AnyKey.int 1)]).Size.2 = 2 ∧
    ((New AnyKey Nat 2).run [Call.Set AnyKey.NaN 0, Call.Set (AnyKey.int 1) 1,
        Call.Set (AnyKey.int 2) 2, Call.Remove (AnyKey.int 1)]).recency = [AnyKey.int 2] ∧
    (((New AnyKey Nat 2).run [Call.Set AnyKey.NaN 0, Call.Set (AnyKey.int 1) 1,
        Call.Set (AnyKey.int 2) 2, Call.Remove (AnyKey.int 1)]).Set (AnyKey.int 3) 3).1.recency
      = [AnyKey.int 3, AnyKey.int 2] := by
  decide

/-- C11, at most one eviction per `Set`, of the back entry, amended: in every
state reached from `New` with a positive capacity by calls in which no key
passed to `Set` is unequal to itself, `Set(k, v)` of an absent key `k` equal
to itself removes no entry when `Size() < capacity`; when `Size() = capacity`
and the key at the back is not nil it removes exactly the key at the back of
the recency order: the keys afterwards are the old keys without that victim,
plus `k`; when `Size() = capacity` and the key at the back is nil it fails and
changes nothing.  Unless it fails, `k` is at the front; and the remaining keys
keep their nodes and their relative order. -/
theorem one_eviction_per_set [Inhabited V] (capacity : Int) (hcap : 0 < capacity)
    (c : MemoryCache K V) (hr : ReachableNoNaN capacity c) (k : K) (v : V)
    (hnan : GoKey.nan k = false) (hk : k ∉ c.data) :
    (c.Size.2 < capacity →
      (∀ x, x ∈ (c.Set k v).1.data ↔ x = k ∨ x ∈ c.data) ∧
      (c.Set k v).1.recency = k :: c.recency) ∧
    (c.Size.2 = capacity → c.backNil = false →
      ∃ z, c.recency.getLast? = some z ∧ z ∈ c.data ∧
        (∀ x, x ∈ (c.Set k v).1.data ↔ x = k ∨ (x ∈ c.data ∧ x ≠ z)) ∧
        (c.Set k v).1.recency = k :: c.recency.dropLast) ∧
    (c.Size.2 = capacity → c.backNil = true → c.Set k v = (c, some error.castK)) ∧
    (c.evictsNil k = false → (c.Set k v).1.recency.head? = some k) ∧
    (∀ x, x ≠ k → x ∈ (c.Set k v).1.data →
      (c.Set k v).1.data.lookup x = c.data.lookup x) := by
  have h := hr.reachable.inv
  have hcl := hr.clean
  have hceq := hr.reachable.capacity_eq
  have hc : 0 < c.capacity := by rw [hceq]; exact hcap
  have hl : c.data.lookup k = none := (GoMap.not_mem_iff _ _).1 hk
  have hsize : c.Size.2 = c.order.Len := hcl.size_eq_len h
  have hfull : c.Size.2 = capacity → c.order.Len ≥ c.capacity := by
    intro heq
    rw [← hsize, hceq, heq]
  refine ⟨?_, ?_, ?_, ?_, fun x hx hm => lookup_Set_of_ne h k v hx hm⟩
  · intro hlt
    rw [Set_absent_room c hl v (by rw [← hsize, hceq]; exact hlt)]
    exact ⟨fun x => GoMap.mem_store _ hnan _ x, rfl⟩
  · intro heq hb
    have hge := hfull heq
    have hne : c.order.elems ≠ [] := by
      intro he
      rw [hsize] at heq
      unfold GoList.Len at heq
      rw [he] at heq
      simp only [List.length_nil, Nat.cast_zero] at heq
      omega
    obtain ⟨a, z, h1, h2⟩ := h.back hne
    have hz : GoKey.isNil z = false := by
      rw [← h.backNil_eq h1]
      exact hb
    have hzr : z ∈ c.recency := List.mem_of_getLast?_eq_some h2
    refine ⟨z, h2, (hcl.mem_recency_iff h z).1 hzr, ?_, ?_⟩
    · intro x
      rw [Set_absent_full c hl v hge h1 hz]
      show x ∈ (c.data.delete z).store k _ ↔ _
      rw [GoMap.mem_store _ hnan, GoMap.mem_delete, and_comm]
    · rw [(Set_absent_spec h hc hl v (evictsNil_eq_false_of_backNil c k hb)).2.1]
      refine (cons_dropLast_eq_take k c.recency _ (by omega) ?_).symm
      rw [h.length_recency]
      have : (c.order.elems.length : Int) = c.capacity := by
        have := hsize.symm.trans (heq.trans hceq.symm)
        exact this
      omega
  · intro heq hb
    exact Set_fail h v ((evictsNil_iff c k).2 ⟨hl, hfull heq, hb⟩)
  · intro he
    rw [(Set_absent_spec h hc hl v he).2.1]
    obtain ⟨M, hM⟩ : ∃ M, c.capacity.toNat = M + 1 := ⟨c.capacity.toNat - 1, by omega⟩
    rw [hM]
    rfl

theorem one_eviction_per_set_witness :
    (0 : Int) < 2 ∧
      AnyKey.int 3 ∉ ((New AnyKey Nat 2).run
        [Call.Set (AnyKey.int 1) 1, Call.Set AnyKey.nil 2]).data ∧
      ∃ z, ((New AnyKey Nat 2).run
          [Call.Set (AnyKey.int 1) 1, Call.Set AnyKey.nil 2]).recency.getLast? = some z ∧
        z ∈ ((New AnyKey Nat 2).run [Call.Set (AnyKey.int 1) 1, Call.Set AnyKey.nil 2]).data ∧
        (∀ x, x ∈ (((New AnyKey Nat 2).run [Call.Set (AnyKey.int 1) 1,
              Call.Set AnyKey.nil 2]).Set (AnyKey.int 3) 3).1.data
          ↔ x = AnyKey.int 3 ∨
            (x ∈ ((New AnyKey Nat 2).run [Call.Set (AnyKey.int 1) 1,
              Call.Set AnyKey.nil 2]).data ∧ x ≠ z)) ∧
        (((New AnyKey Nat 2).run [Call.Set (AnyKey.int 1) 1,
            Call.Set AnyKey.nil 2]).Set (AnyKey.int 3) 3).1.recency
          = AnyKey.int 3 :: ((New AnyKey Nat 2).run [Call.Set (AnyKey.int 1) 1,
              Call.Set AnyKey.nil 2]).recency.dropLast :=
  ⟨by decide, by decide,
   (one_eviction_per_set 2 (by decide)
      ((New AnyKey Nat 2).run [Call.Set (AnyKey.int 1) 1, Call.Set AnyKey.nil 2])
      ⟨_, by decide, rfl⟩ (AnyKey.int 3) 3 (by decide) (by decide)).2.1
      (by decide) (by decide)⟩

/-- C13 as stated fails: with keys of type `any`, after three `Set` of the NaN
on `New(2)` the recency list holds two elements with the same key value and
`Size()` is 3, not the length 2 of the recency list. -/
theorem index_order_consistency_fails :
    ¬ (((New AnyKey Nat 2).run [Call.Set AnyKey.NaN 1, Call.Set AnyKey.NaN 2,
        Call.Set AnyKey.NaN 3]).order.elems.map Element.Value).Nodup ∧
    ((New AnyKey Nat 2).run [Call.Set AnyKey.NaN 1, Call.Set AnyKey.NaN 2,
        Call.Set AnyKey.NaN 3]).Size.2 = 3 ∧
    ((New AnyKey Nat 2).run [Call.Set AnyKey.NaN 1, Call.Set AnyKey.NaN 2,
        Call.Set AnyKey.NaN 3]).order.Len = 2 := by
  decide

/-- C13, index/order consistency, amended: in every state reached from `New`,
for any capacity, by calls in which no key passed to `Set` is unequal to
itself, no key occurs twice in the recency list, every element of the list
holds a key of the index and every key of the index is held by an element,
the position reference of each index entry is the address of the one element
holding that key, and `Size()` is the number of index entries and the length
of the recency list. -/
theorem index_order_consistency [Inhabited V] (capacity : Int) (c : MemoryCache K V)
    (hr : ReachableNoNaN capacity c) :
    (c.order.elems.map Element.Value).Nodup ∧
    (∀ e ∈ c.order.elems, ∃ k, e.Value = some k ∧ k ∈ c.data) ∧
    (∀ k, k ∈ c.data ↔ some k ∈ c.order.elems.map Element.Value) ∧
    (∀ k n, c.data.lookup k = some n →
      ∃ e ∈ c.order.elems, e.addr = n.key ∧ e.Value = some k ∧
        ∀ e1 ∈ c.order.elems, e1.addr = n.key → e1 = e) ∧
    c.Size.2 = (c.data.len : Int) ∧ c.Size.2 = c.order.Len := by
  have h := hr.reachable.inv
  have hcl := hr.clean
  have hv := map_value_eq c.order.elems h.value_isSome
  refine ⟨?_, ?_, ?_, ?_, rfl, hcl.size_eq_len h⟩
  · rw [hv]
    exact (hcl.nodup_recency h).map (Option.some_injective K)
  · intro e he
    obtain ⟨k, h1, _⟩ := h.ofOrder e he
    refine ⟨k, h1, (hcl.mem_recency_iff h k).1 ?_⟩
    exact List.mem_filterMap.2 ⟨e, he, h1⟩
  · intro k
    rw [hv, List.mem_map_of_injective (Option.some_injective K)]
    exact (hcl.mem_recency_iff h k).symm
  · intro k n hk
    refine ⟨_, (h.ofLookup hk).2, rfl, rfl, ?_⟩
    intro e1 he1 ha
    exact Element.eq_of_addr h.nodup he1 (h.ofLookup hk).2 ha

theorem index_order_consistency_witness :
    (((New AnyKey Nat 2).run [Call.Set AnyKey.nil 1, Call.Set (AnyKey.int 2) 2,
        Call.Get AnyKey.nil, Call.Set (AnyKey.int 3) 3,
        Call.Remove AnyKey.nil]).order.elems.map Element.Value).Nodup ∧
      ((New AnyKey Nat 2).run [Call.Set AnyKey.nil 1, Call.Set (AnyKey.int 2) 2,
        Call.Get AnyKey.nil, Call.Set (AnyKey.int 3) 3, Call.Remove AnyKey.nil]).Size.2
        = ((New AnyKey Nat 2).run [Call.Set AnyKey.nil 1, Call.Set (AnyKey.int 2) 2,
            Call.Get AnyKey.nil, Call.Set (AnyKey.int 3) 3,
            Call.Remove AnyKey.nil]).order.Len :=
  ⟨(index_order_consistency 2 ((New AnyKey Nat 2).run [Call.Set AnyKey.nil 1,
      Call.Set (AnyKey.int 2) 2, Call.Get AnyKey.nil, Call.Set (AnyKey.int 3) 3,
      Call.Remove AnyKey.nil]) ⟨_, by decide, rfl⟩).1,
   (index_order_consistency 2 ((New AnyKey Nat 2).run [Call.Set AnyKey.nil 1,
      Call.Set (AnyKey.int 2) 2, Call.Get AnyKey.nil, Call.Set (AnyKey.int 3) 3,
      Call.Remove AnyKey.nil]) ⟨_, by decide, rfl⟩).2.2.2.2.2⟩

/-- C15, non-positive capacity: in every state reachable from `New(capacity)`
with `capacity ≤ 0` the recency list is empty, every `Set` finds its key
absent and the list at or above capacity, so it calls `evict` on the empty
list, returns the error of `evict` and leaves the state as it was; `Size()` is
0, `Exists` is false and `Get` misses for every key. -/
theorem non_positive_capacity [Inhabited V] (capacity : Int) (hcap : capacity ≤ 0)
    (c : MemoryCache K V) (hr : Reachable capacity c) (k : K) (v : V) :
    c.order.Back = none ∧ c.data.lookup k = none ∧ c.order.Len ≥ c.capacity ∧
    c.evict.2 = some error.noElementsToEvict ∧
    (c.Set k v).2 = some error.noElementsToEvict ∧ (c.Set k v).1 = c ∧
    c.Size.2 = 0 ∧ (c.Exists k).2 = false ∧ (c.Get k).2 = (default, false) := by
  have h := hr.inv
  have hc : c.capacity ≤ 0 := by rw [hr.capacity_eq]; exact hcap
  have he := h.elems_eq_nil hc
  have hrec : c.recency = [] := by
    show c.order.elems.filterMap Element.Value = []
    rw [he]
    rfl
  have hl : c.data.lookup k = none :=
    lookup_eq_none_of_not_mem h (by rw [hrec]; exact List.not_mem_nil k)
  have hge : c.order.Len ≥ c.capacity := by
    unfold GoList.Len
    rw [he]
    simpa using hc
  have hset := Set_absent_empty c hl v hge he
  have hlost : c.data.lost = [] := by
    by_contra hne
    have := h.lostPos hne
    omega
  refine ⟨?_, hl, hge, ?_, ?_, ?_, ?_, ?_, ?_⟩
  · show c.order.elems.getLast? = none
    rw [he]
    rfl
  · rw [evict_empty c he]
  · rw [hset]
  · rw [hset]
  · show (((c.data.reg.keys.card + c.data.lost.length : Nat) : Int)) = 0
    rw [h.card_reg, hrec, hlost]
    rfl
  · show (c.data.lookup k).isSome = false
    rw [hl]
    rfl
  · rw [Get_absent c hl]

theorem non_positive_capacity_witness :
    (0 : Int) ≤ 0 ∧
      (((New Nat Nat 0).run [Call.Set 1 1, Call.Get 1, Call.Remove 1]).Set 2 2).2
        = some error.noElementsToEvict ∧
      ((New Nat Nat 0).run [Call.Set 1 1, Call.Get 1, Call.Remove 1]).Size.2 = 0 :=
  ⟨by decide,
   (non_positive_capacity 0 (by decide)
      ((New Nat Nat 0).run [Call.Set 1 1, Call.Get 1, Call.Remove 1]) ⟨_, rfl⟩ 2 2).2.2.2.2.1,
   (non_positive_capacity 0 (by decide)
      ((New Nat Nat 0).run [Call.Set 1 1, Call.Get 1, Call.Remove 1])
      ⟨_, rfl⟩ 2 2).2.2.2.2.2.2.1⟩

/-- C16, `Set` is atomic on failure: in every cache state, reachable or not,
if `Set` returns an error then the state after the call is the state before
it: no key was inserted and no entry evicted. -/
theorem set_atomic_on_failure (c : MemoryCache K V) (k : K) (v : V) (e : error K)
    (herr : (c.Set k v).2 = some e) : (c.Set k v).1 = c := by
  rcases hk : c.data.lookup k with _ | n
  · by_cases hge : c.order.Len ≥ c.capacity
    · rcases hb : c.order.Back with _ | el
      · have hev : c.evict = (c, some error.noElementsToEvict) := by
          simp only [MemoryCache.evict, hb]
        simp only [MemoryCache.Set, hk, hge, if_true, hev]
      · rcases hv : el.assertK with _ | key
        · have hev : c.evict = (c, some error.castK) := by
            simp only [MemoryCache.evict, hb, hv]
          simp only [MemoryCache.Set, hk, hge, if_true, hev]
        · have hev : c.evict
              = ({ c with order := c.order.Remove el.addr, data := c.data.delete key },
                  none) := by
            simp only [MemoryCache.evict, hb, hv]
          simp only [MemoryCache.Set, hk, hge, if_true, hev] at herr
          cases herr
    · rw [Set_absent_room c hk v (not_le.1 hge)] at herr
      cases herr
  · rw [Set_present c hk v] at herr
    cases herr

theorem set_atomic_on_failure_witness :
    (({ data := ∅, order := ⟨[⟨0, none⟩], 1⟩, capacity := 1 } : MemoryCache Nat Nat).Set 5 5).2
        = some error.castK ∧
      (({ data := ∅, order := ⟨[⟨0, none⟩], 1⟩, capacity := 1 } : MemoryCache Nat Nat).Set 5 5).1
        = { data := ∅, order := ⟨[⟨0, none⟩], 1⟩, capacity := 1 } :=
  ⟨by decide,
   set_atomic_on_failure { data := ∅, order := ⟨[⟨0, none⟩], 1⟩, capacity := 1 } 5 5
     error.castK (by decide)⟩

/-- C18 as stated fails: with keys of type `any`, on `New(2)` the NaN is
absent and `Size() = 0 < 2`; `Set(NaN, 1)` succeeds, but the `Remove(NaN)`
directly after it fails with the not-found error and leaves `Size()` at 1 and
the NaN in the recency list. -/
theorem set_remove_identity_fails :
    AnyKey.NaN ∉ (New AnyKey Nat 2).data ∧ (New AnyKey Nat 2).Size.2 < 2 ∧
    ((New AnyKey Nat 2).Set AnyKey.NaN 1).2 = none ∧
    (((New AnyKey Nat 2).Set AnyKey.NaN 1).1.Remove AnyKey.NaN).2
      = some (error.noEntry AnyKey.NaN) ∧
    (((New AnyKey Nat 2).Set AnyKey.NaN 1).1.Remove AnyKey.NaN).1.Size.2 = 1 ∧
    (((New AnyKey Nat 2).Set AnyKey.NaN 1).1.Remove AnyKey.NaN).1.recency = [AnyKey.NaN] := by
  decide

/-- C18, `Set` then `Remove` when there is room, amended: in every state
reachable from `New` in which a key `k` equal to itself is absent and
`Size() < capacity`, `Set(k, v)` directly followed by `Remove(k)` both succeed
and give back the previous index (keys and values), the previous recency list
and the capacity; only the allocator of the list has moved on, by the one
element that was linked and unlinked. -/
theorem set_remove_identity [Inhabited V] (capacity : Int) (c : MemoryCache K V)
    (hr : Reachable capacity c) (k : K) (v : V) (hnan : GoKey.nan k = false)
    (hk : k ∉ c.data) (hroom : c.Size.2 < capacity) :
    (c.Set k v).2 = none ∧ ((c.Set k v).1.Remove k).2 = none ∧
    ((c.Set k v).1.Remove k).1.data = c.data ∧
    ((c.Set k v).1.Remove k).1.order.elems = c.order.elems ∧
    ((c.Set k v).1.Remove k).1.recency = c.recency ∧
    ((c.Set k v).1.Remove k).1.capacity = c.capacity := by
  have h := hr.inv
  have hl : c.data.lookup k = none := (GoMap.not_mem_iff _ _).1 hk
  have hlt : c.order.Len < c.capacity := by
    have hle : c.order.Len ≤ c.Size.2 := by
      show (c.order.elems.length : Int) ≤ ((c.data.len : Nat) : Int)
      exact Int.ofNat_le.2 h.len_le_size
    rw [hr.capacity_eq]
    omega
  have hset := Set_absent_room c hl v hlt
  have hl1 : (c.Set k v).1.data.lookup k = some ⟨v, c.order.fresh⟩ := by
    rw [hset]
    exact GoMap.lookup_store_self _ hnan _
  have hrem := Remove_present (c.Set k v).1 hl1
  have helems : ((c.Set k v).1.Remove k).1.order.elems = c.order.elems := by
    rw [hrem, hset]
    show List.filter (fun x => x.addr != c.order.fresh)
      ((⟨c.order.fresh, some k⟩ : Element K) :: c.order.elems) = c.order.elems
    rw [List.filter_cons_of_neg (by simp)]
    refine List.filter_eq_self.2 (fun x hx => ?_)
    have := h.below x hx
    exact bne_iff_ne.2 (by omega)
  refine ⟨by rw [hset], by rw [hrem], ?_, helems, ?_, ?_⟩
  · rw [hrem, hset]
    exact GoMap.delete_store c.data hnan hl _
  · show ((c.Set k v).1.Remove k).1.order.elems.filterMap Element.Value = _
    rw [helems]
    rfl
  · rw [Remove_capacity, Set_capacity]

theorem set_remove_identity_witness :
    AnyKey.nil ∉ ((New AnyKey Nat 3).run
        [Call.Set AnyKey.NaN 1, Call.Set (AnyKey.int 2) 2]).data ∧
      ((((New AnyKey Nat 3).run [Call.Set AnyKey.NaN 1, Call.Set (AnyKey.int 2) 2]).Set
          AnyKey.nil 5).1.Remove AnyKey.nil).1.data
        = ((New AnyKey Nat 3).run [Call.Set AnyKey.NaN 1, Call.Set (AnyKey.int 2) 2]).data ∧
      ((((New AnyKey Nat 3).run [Call.Set AnyKey.NaN 1, Call.Set (AnyKey.int 2) 2]).Set
          AnyKey.nil 5).1.Remove AnyKey.nil).1.order.elems
        = ((New AnyKey Nat 3).run
            [Call.Set AnyKey.NaN 1, Call.Set (AnyKey.int 2) 2]).order.elems :=
  ⟨by decide,
   (set_remove_identity 3
      ((New AnyKey Nat 3).run [Call.Set AnyKey.NaN 1, Call.Set (AnyKey.int 2) 2]) ⟨_, rfl⟩
      AnyKey.nil 5 (by decide) (by decide) (by decide)).2.2.1,
   (set_remove_identity 3
      ((New AnyKey Nat 3).run [Call.Set AnyKey.NaN 1, Call.Set (AnyKey.int 2) 2]) ⟨_, rfl⟩
      AnyKey.nil 5 (by decide) (by decide) (by decide)).2.2.2.1⟩

/-- C19 as stated fails: with keys of type `any`, on `New(2)` `Set(NaN, 1)`
succeeds, and a second `Set(NaN, 1)` directly after it changes the state:
`Size()` goes from 1 to 2 and the recency list from one element to two. -/
theorem touch_idempotent_fails :
    ((New AnyKey Nat 2).Set AnyKey.NaN 1).2 = none ∧
    ((New AnyKey Nat 2).Set AnyKey.NaN 1).1.Size.2 = 1 ∧
    (((New AnyKey Nat 2).Set AnyKey.NaN 1).1.Set AnyKey.NaN 1).1.Size.2 = 2 ∧
    ((New AnyKey Nat 2).Set AnyKey.NaN 1).1.recency = [AnyKey.NaN] ∧
    (((New AnyKey Nat 2).Set AnyKey.NaN 1).1.Set AnyKey.NaN 1).1.recency
      = [AnyKey.NaN, AnyKey.NaN] := by
  decide

/-- C19, idempotence of touches, amended: in every state reachable from `New`,
if `Set(k, v)` of a key `k` equal to itself succeeds then a second `Set(k, v)`
directly after it succeeds and leaves the state exactly as the first left it;
and, for every key, `Get(k)` called a second time returns what the first call
returned and leaves the state as the first call left it. -/
theorem touch_idempotent [Inhabited V] (capacity : Int) (c : MemoryCache K V)
    (hr : Reachable capacity c) (k : K) (v : V) :
    (GoKey.nan k = false → (c.Set k v).2 = none →
      (c.Set k v).1.Set k v = ((c.Set k v).1, none)) ∧
    (c.Get k).1.Get k = ((c.Get k).1, (c.Get k).2) := by
  have h := hr.inv
  constructor
  · intro hnan hok
    obtain ⟨a, t, h1, h2⟩ := Set_head h k v hok
    have h3 := h2 hnan
    rw [Set_present (c.Set k v).1 h3 v]
    have hm : (c.Set k v).1.order.MoveToFront a = (c.Set k v).1.order :=
      moveToFront_head (c.Set k v).1.order ⟨a, some k⟩ t h1
    have hn : (⟨v, (⟨v, a⟩ : node V).key⟩ : node V) = ⟨v, a⟩ := rfl
    simp only [hn]
    rw [hm, GoMap.store_lookup_self _ h3]
  · rcases hk : c.data.lookup k with _ | n
    · rw [Get_absent c hk, Get_absent c hk]
    · have hg := Get_present c hk
      have hl1 : (c.Get k).1.data.lookup k = some n := by rw [hg]; exact hk
      have he : (c.Get k).1.order.elems
          = ⟨n.key, some k⟩ :: c.order.elems.filter (fun y => y.addr != n.key) := by
        rw [hg]
        exact moveToFront_elems c.order _ (h.ofLookup hk).2 h.nodup
      rw [Get_present (c.Get k).1 hl1]
      have hm : (c.Get k).1.order.MoveToFront n.key = (c.Get k).1.order :=
        moveToFront_head (c.Get k).1.order ⟨n.key, some k⟩ _ he
      rw [hm, hg]

theorem touch_idempotent_witness :
    (((New AnyKey Nat 2).run [Call.Set AnyKey.nil 1, Call.Set (AnyKey.int 2) 2]).Set
        AnyKey.nil 7).1.Set AnyKey.nil 7
      = ((((New AnyKey Nat 2).run [Call.Set AnyKey.nil 1, Call.Set (AnyKey.int 2) 2]).Set
          AnyKey.nil 7).1, none) :=
  (touch_idempotent 2
    ((New AnyKey Nat 2).run [Call.Set AnyKey.nil 1, Call.Set (AnyKey.int 2) 2]) ⟨_, rfl⟩
    AnyKey.nil 7).1 (by decide) (by decide)

/-- C12, locking discipline, where the code departs from it: `Get` takes the
shared lock (`RLock`), so two `Get(1)` calls on a cache holding keys 1 and 2
are both inside the lock at once, and the body of each writes the recency
list; two `Set` calls, which take the exclusive lock, cannot be. -/
theorem get_takes_shared_lock :
    (Call.Get 1 : Call Nat Nat).lock = LockKind.RLock ∧
    RWMutex.enterAll ⟨false, 0⟩ [(Call.Get 1 : Call Nat Nat), Call.Get 1]
      = some ⟨false, 2⟩ ∧
    ((New Nat Nat 2).run [Call.Set 1 1, Call.Set 2 2]).writesOrder (Call.Get 1) = true ∧
    (Call.Set 1 1 : Call Nat Nat).lock = LockKind.Lock ∧
    RWMutex.enterAll ⟨false, 0⟩ [(Call.Set 1 1 : Call Nat Nat), Call.Set 1 1] = none := by
  decide

/-- C14 as stated fails: with keys of type `any`, after `Set(NaN, 0)`,
`Set(1, 1)`, `Set(NaN, 2)` on `New(3)` the key at the back of the recency
order is the NaN, which is not a present key (`Exists` is false for it), and
the present key 1 was not touched later than the last touch of the key at the
back. -/
theorem last_touch_order_fails :
    AnyKey.int 1 ∈ ((New AnyKey Nat 3).run [Call.Set AnyKey.NaN 0, Call.Set (AnyKey.int 1) 1,
        Call.Set AnyKey.NaN 2]).data ∧
    ((New AnyKey Nat 3).run [Call.Set AnyKey.NaN 0, Call.Set (AnyKey.int 1) 1,
        Call.Set AnyKey.NaN 2]).recency.getLast? = some AnyKey.NaN ∧
    (((New AnyKey Nat 3).run [Call.Set AnyKey.NaN 0, Call.Set (AnyKey.int 1) 1,
        Call.Set AnyKey.NaN 2]).Exists AnyKey.NaN).2 = false ∧
    AnyKey.int 1 ≠ AnyKey.NaN ∧
    ¬ (age ((New AnyKey Nat 3).runLog [] [Call.Set AnyKey.NaN 0, Call.Set (AnyKey.int 1) 1,
          Call.Set AnyKey.NaN 2]).2 (AnyKey.int 1)
        < age ((New AnyKey Nat 3).runLog [] [Call.Set AnyKey.NaN 0, Call.Set (AnyKey.int 1) 1,
          Call.Set AnyKey.NaN 2]).2 AnyKey.NaN) := by
  decide

/-- C14, the recency order is last-touch order, amended: on a cache created
with a positive capacity, after any finite sequence of calls, every present
key was touched, and of two present keys `x` and `y`, `x` is nearer the front
of the recency order than `y` exactly when fewer calls were made since the
last touch of `x` than since the last touch of `y`.  Hence the key at the
back, when it is a present key, is the least recently touched present key, and
`Exists`, `Size`, `Remove` of another key and a `Get` that misses leave the
key at the back as it is. -/
theorem last_touch_order [Inhabited V] (capacity : Int) (hcap : 0 < capacity)
    (cs : List (Call K V)) (x y : K)
    (hx : x ∈ ((New K V capacity).run cs).data) (hy : y ∈ ((New K V capacity).run cs).data) :
    ((New K V capacity).runLog [] cs).1 = (New K V capacity).run cs ∧
    some x ∈ ((New K V capacity).runLog [] cs).2 ∧
    (((New K V capacity).run cs).recency.indexOf x
        < ((New K V capacity).run cs).recency.indexOf y
      ↔ age ((New K V capacity).runLog [] cs).2 x
        < age ((New K V capacity).runLog [] cs).2 y) ∧
    (∀ z, ((New K V capacity).run cs).recency.getLast? = some z →
      z ∈ ((New K V capacity).run cs).data → y ≠ z →
      age ((New K V capacity).runLog [] cs).2 y
        < age ((New K V capacity).runLog [] cs).2 z) ∧
    (∀ k, (((New K V capacity).run cs).Exists k).1.recency.getLast?
      = ((New K V capacity).run cs).recency.getLast?) ∧
    ((New K V capacity).run cs).Size.1.recency.getLast?
      = ((New K V capacity).run cs).recency.getLast? ∧
    (∀ k, ((New K V capacity).run cs).recency.getLast? ≠ some k →
      (((New K V capacity).run cs).Remove k).1.recency.getLast?
        = ((New K V capacity).run cs).recency.getLast?) ∧
    (∀ k, (((New K V capacity).run cs).Get k).2.2 = false →
      (((New K V capacity).run cs).Get k).1.recency.getLast?
        = ((New K V capacity).run cs).recency.getLast?) := by
  have hfst := runLog_fst (New K V capacity) [] cs
  have h : Inv ((New K V capacity).run cs) := (Inv.new capacity).run cs
  have hq : Agrees ((New K V capacity).run cs).recency ((New K V capacity).runLog [] cs).2 := by
    have := runLog_agrees (Inv.new capacity) (show 0 < (New K V capacity).capacity from hcap)
      (show Agrees (New K V capacity).recency [] from
        ⟨fun x hx => absurd hx (List.not_mem_nil x),
         fun x hx => absurd hx (List.not_mem_nil x)⟩) cs
    rwa [hfst] at this
  have hxr := h.mem_recency_of_mem hx
  have hyr := h.mem_recency_of_mem hy
  refine ⟨hfst, hq.1 x hxr, hq.2 x hxr y hyr, ?_, fun _ => rfl, rfl, ?_, ?_⟩
  · intro z hz hzd hyz
    have hzr : z ∈ ((New K V capacity).run cs).recency := List.mem_of_getLast?_eq_some hz
    exact (hq.2 y hyr z hzr).1
      (indexOf_lt_getLast _ z hz (h.back_not_mem_dropLast hz (Inv.nan_of_mem hzd)) y hyr hyz)
  · intro k hk
    rw [recency_Remove h k]
    split
    · exact getLast_filter_ne _ k hk
    · rfl
  · intro k hk
    rcases hl : ((New K V capacity).run cs).data.lookup k with _ | n
    · rw [Get_absent _ hl]
    · rw [Get_present _ hl] at hk
      cases hk

theorem last_touch_order_witness :
    (0 : Int) < 2 ∧
      (((New Nat Nat 2).run [Call.Set 1 1, Call.Set 2 2, Call.Get 1, Call.Exists 2]).recency.indexOf
          1
        < ((New Nat Nat 2).run [Call.Set 1 1, Call.Set 2 2, Call.Get 1,
            Call.Exists 2]).recency.indexOf 2
      ↔ age ((New Nat Nat 2).runLog [] [Call.Set 1 1, Call.Set 2 2, Call.Get 1,
            Call.Exists 2]).2 1
        < age ((New Nat Nat 2).runLog [] [Call.Set 1 1, Call.Set 2 2, Call.Get 1,
            Call.Exists 2]).2 2) :=
  ⟨by decide,
   (last_touch_order 2 (by decide) [Call.Set 1 1, Call.Set 2 2, Call.Get 1, Call.Exists 2]
      1 2 (by decide) (by decide)).2.2.1⟩

/-- C17 as stated fails: with keys of type `any`, (1) on `New(1)` the calls
`Set(nil, 1)`, `Get(nil)`, `Set(1, 2)`, `Get(1)`, `Exists(nil)`: the cache
fails the second `Set` and keeps nil, the reference model does not; (2) on
`New(2)` three `Set` of the NaN and `Size()`: the cache returns 3. -/
theorem naive_model_equivalence_fails :
    (New AnyKey Nat 1).results [Call.Set AnyKey.nil 1, Call.Get AnyKey.nil,
        Call.Set (AnyKey.int 1) 2, Call.Get (AnyKey.int 1), Call.Exists AnyKey.nil]
      ≠ Naive.results 1 [] [Call.Set AnyKey.nil 1, Call.Get AnyKey.nil,
        Call.Set (AnyKey.int 1) 2, Call.Get (AnyKey.int 1), Call.Exists AnyKey.nil] ∧
    (New AnyKey Nat 2).results [Call.Set AnyKey.NaN 1, Call.Set AnyKey.NaN 2,
        Call.Set AnyKey.NaN 3, Call.Size]
      ≠ Naive.results 2 [] [Call.Set AnyKey.NaN 1, Call.Set AnyKey.NaN 2,
        Call.Set AnyKey.NaN 3, Call.Size] := by
  decide

/-- C17, equivalence with the reference model, amended: for a positive
capacity and every finite sequence of `Set`, `Remove`, `Get`, `Exists` and
`Size` calls in which no key passed to `Set` is nil or unequal to itself, the
results the cache returns, call by call, are the results of the reference
model that keeps one list of (key, value) pairs, most recent first. -/
theorem naive_model_equivalence [Inhabited V] (capacity : Int) (hcap : 0 < capacity)
    (cs : List (Call K V)) (hcs : ∀ x ∈ cs, x.setsNaN = false ∧ x.setsNil = false) :
    (New K V capacity).results cs = Naive.results capacity [] cs := by
  have hc : 0 < (New K V capacity).capacity := hcap
  have habs : (New K V capacity).abs = [] := rfl
  have hsim := results_eq (Inv.new capacity) (clean_new capacity) (noNil_new capacity) hc cs hcs
  rw [habs] at hsim
  exact hsim

theorem naive_model_equivalence_witness :
    (0 : Int) < 2 ∧
      (New AnyKey Nat 2).results [Call.Set (AnyKey.int 1) 10, Call.Set (AnyKey.int 2) 20,
          Call.Get (AnyKey.int 1), Call.Get AnyKey.NaN, Call.Set (AnyKey.int 3) 30,
          Call.Exists (AnyKey.int 2), Call.Remove AnyKey.nil, Call.Size,
          Call.Get (AnyKey.int 3)]
        = Naive.results 2 [] [Call.Set (AnyKey.int 1) 10, Call.Set (AnyKey.int 2) 20,
          Call.Get (AnyKey.int 1), Call.Get AnyKey.NaN, Call.Set (AnyKey.int 3) 30,
          Call.Exists (AnyKey.int 2), Call.Remove AnyKey.nil, Call.Size,
          Call.Get (AnyKey.int 3)] :=
  ⟨by decide, naive_model_equivalence 2 (by decide) _ (by decide)⟩

end cache
